import Mathlib

/-!
# Verification of the Bengaluru Navigator shortest-path engine

A shallow embedding of `src/lib/dijkstra.ts` (together with the data model of
`src/lib/types.ts`), and proofs of the specification claims about it.

Modelling conventions:

* JavaScript `number` values that hold distances and edge weights are modelled
  by `WithTop ℤ` (written `JsNum` below): `⊤` is JavaScript's `Infinity`.  The
  engine uses only ordered addition and comparison on these values, never
  division or rounding, so exact arithmetic in a linearly ordered abelian
  group is a faithful model; IEEE-754 rounding is out of scope.
* JavaScript `Record<string, T>` tables whose key set is fixed at
  initialisation (`distances`, `previous`) are modelled as total functions
  `String → _`.  A lookup of an absent key yields `undefined` in JavaScript;
  the algorithm only ever reads keys it has initialised, except for
  `previous[current]` during path reconstruction, where `undefined` and
  `null` behave identically (both are falsy), so the default values chosen
  here (`⊤`, `none`) are observationally faithful.
* The adjacency table `adj` is modelled as an association list because the
  code indexes it with identifiers that may be absent (`adj[currentNodeId]`
  for an unknown start node is `undefined`, and the subsequent `.forEach`
  throws a `TypeError`).  A thrown `TypeError` is modelled as
  `Except.error JsError.typeError`.
* `Set<string>` is modelled as a `List String` in insertion order with
  membership-checked insertion, mirroring `Set.prototype.add`.
* The priority queue keeps its backing array sorted by re-sorting after every
  push with the comparator `(a, b) => a.distance - b.distance`.
  `Array.prototype.sort` is a stable ascending sort, modelled by Mathlib's
  stable `List.insertionSort`.
* The `while (pq.length > 0)` loop is modelled with an explicit fuel
  parameter; `dijkstraLoop_no_fuel_error` below proves the fuel supplied by
  `dijkstra` is never exhausted, so the fuelled recursion coincides with the
  JavaScript loop.
* The human-readable `description` strings attached to every step are purely
  presentational (they are never read by the algorithm and no claim concerns
  them); they are not modelled.
-/

namespace BengaluruNavigator

/-- JavaScript `number` as used for distances and weights: `⊤` is `Infinity`. -/
abbrev JsNum := WithTop ℤ

/-- `types.ts`: `Node` (identifier, 2D position, display name). -/
structure Node where
  id : String
  x : ℤ
  y : ℤ
  name : String
deriving DecidableEq, Repr

/-- `types.ts`: `Edge` (identifier, endpoint identifiers, weight). -/
structure Edge where
  id : String
  source : String
  target : String
  weight : ℤ
deriving DecidableEq, Repr

/-- `types.ts`: `Graph` (node list and edge list). -/
structure Graph where
  nodes : List Node
  edges : List Edge
deriving DecidableEq, Repr

/-- Entries of the priority queue: `{ nodeId: string; distance: number }`. -/
structure QueueEntry where
  nodeId : String
  distance : JsNum
deriving DecidableEq, Repr

/-- Entries of the adjacency lists: `{ nodeId: string; weight: number }`. -/
structure AdjEntry where
  nodeId : String
  weight : ℤ
deriving DecidableEq, Repr

/-- The `type` discriminator of `DijkstraStep`:
`'visiting' | 'neighbor' | 'finished-node' | 'path'`. -/
inductive StepType where
  | visiting
  | neighbor
  | finishedNode
  | path
deriving DecidableEq, Repr

/-- `types.ts`: `DijkstraStep`.  The `description` string is not modelled
(see the module comment).  Optional fields are `Option`s; the `queue`
snapshot is always supplied by `dijkstra.ts`, as a plain list. -/
structure DijkstraStep where
  currentNodeId : Option String
  type : StepType
  distances : String → JsNum
  visited : List String
  path : Option (List String)
  neighbor : Option String
  queue : List QueueEntry

/-- Runtime faults of the embedding: `typeError` models a thrown JavaScript
`TypeError` (property access on `undefined`); `outOfFuel` is an artifact of
the fuelled loop and is proved unreachable for the fuel `dijkstra` supplies. -/
inductive JsError where
  | typeError
  | outOfFuel
deriving DecidableEq, Repr

/-- The ordering imposed by the queue comparator
`(a, b) => a.distance - b.distance`: ascending by distance. -/
def entryLE (a b : QueueEntry) : Prop := a.distance ≤ b.distance

instance : DecidableRel entryLE := fun a b =>
  inferInstanceAs (Decidable (a.distance ≤ b.distance))

instance : IsTotal QueueEntry entryLE := ⟨fun a b => le_total a.distance b.distance⟩

instance : IsTrans QueueEntry entryLE :=
  ⟨fun _ _ _ hab hbc => le_trans hab hbc⟩

/-- `PriorityQueue.enqueue`: push the new entry, then re-sort the backing
array ascending by distance (`values.sort((a, b) => a.distance - b.distance)`,
a stable sort, modelled by the stable `List.insertionSort`). -/
def pqEnqueue (values : List QueueEntry) (nodeId : String) (distance : JsNum) :
    List QueueEntry :=
  List.insertionSort entryLE
    (values ++ [{ nodeId := nodeId, distance := distance }])

/-- `Set.prototype.add`: append if absent (JavaScript sets keep insertion
order and ignore duplicates). -/
def setAdd (visited : List String) (id : String) : List String :=
  if visited.contains id then visited else visited ++ [id]

/-- Association-list lookup (JavaScript object property read; `none` is
`undefined`). -/
def alLookup {α : Type} : List (String × α) → String → Option α
  | [], _ => none
  | (k, v) :: rest, key => if k = key then some v else alLookup rest key

/-- Association-list assignment (JavaScript `obj[k] = v`: overwrite an
existing key in place, else append). -/
def alSet {α : Type} : List (String × α) → String → α → List (String × α)
  | [], key, v => [(key, v)]
  | (k, w) :: rest, key, v =>
    if k = key then (key, v) :: rest else (k, w) :: alSet rest key v

/-- The adjacency table type: node identifier ↦ list of incident entries. -/
abbrev AdjTable := List (String × List AdjEntry)

/-- `adj[k].push(e)`: a `TypeError` if `adj[k]` is `undefined`. -/
def alPush (adj : AdjTable) (k : String) (e : AdjEntry) :
    Except JsError AdjTable :=
  match alLookup adj k with
  | none => .error .typeError
  | some l => .ok (alSet adj k (l ++ [e]))

/-- `graph.nodes.forEach(node => { distances[node.id] = node.id === startNodeId ? 0 : Infinity; ... })`. -/
def initDistances (nodes : List Node) (startNodeId : String) : String → JsNum :=
  nodes.foldl
    (fun d node =>
      Function.update d node.id (if node.id = startNodeId then 0 else ⊤))
    (fun _ => ⊤)

/-- `graph.nodes.forEach(node => { ... previous[node.id] = null; ... })`. -/
def initPrevious (nodes : List Node) : String → Option String :=
  nodes.foldl (fun p node => Function.update p node.id none) (fun _ => none)

/-- `graph.nodes.forEach(node => { ... adj[node.id] = []; })`. -/
def initAdj (nodes : List Node) : AdjTable :=
  nodes.foldl (fun m node => alSet m node.id []) []

/-- `graph.edges.forEach(edge => { adj[edge.source].push({...}); adj[edge.target].push({...}); })`:
edges are inserted in both directions, sequentially; a thrown `TypeError`
aborts the traversal. -/
def insertEdges : List Edge → AdjTable → Except JsError AdjTable
  | [], adj => .ok adj
  | edge :: rest, adj => do
    let m ← alPush adj edge.source { nodeId := edge.target, weight := edge.weight }
    let m₂ ← alPush m edge.target { nodeId := edge.source, weight := edge.weight }
    insertEdges rest m₂

/-- The mutable state threaded through the main loop: the emitted steps, the
distance table, the predecessor table, the visited set and the priority
queue. -/
structure LoopState where
  steps : List DijkstraStep
  distances : String → JsNum
  previous : String → Option String
  visited : List String
  pq : List QueueEntry

/-- The body of `adj[currentNodeId].forEach(neighbor => ...)` (lines 82–115):
skip visited neighbors, always log a `'neighbor'` step, and on improvement
update the tables, enqueue, and log a second `'neighbor'` step with the
updated snapshots. -/
def relaxNeighbor (currentNodeId : String) (st : LoopState) (neighbor : AdjEntry) :
    LoopState :=
  if st.visited.contains neighbor.nodeId then st
  else
    let distance := st.distances currentNodeId + (neighbor.weight : JsNum)
    let st1 : LoopState :=
      { st with
        steps := st.steps ++
          [{ currentNodeId := some currentNodeId, type := .neighbor,
             distances := st.distances, visited := st.visited,
             path := none, neighbor := some neighbor.nodeId, queue := st.pq }] }
    if distance < st1.distances neighbor.nodeId then
      let distances' := Function.update st1.distances neighbor.nodeId distance
      let previous' := Function.update st1.previous neighbor.nodeId (some currentNodeId)
      let pq' := pqEnqueue st1.pq neighbor.nodeId distance
      { steps := st1.steps ++
          [{ currentNodeId := some currentNodeId, type := .neighbor,
             distances := distances', visited := st1.visited,
             path := none, neighbor := some neighbor.nodeId, queue := pq' }],
        distances := distances', previous := previous',
        visited := st1.visited, pq := pq' }
    else st1

/-- The outcome of one iteration of the main loop. -/
inductive IterOut where
  | more (st : LoopState)
  | halt (st : LoopState)
  | fail

/-- One iteration of `while (pq.length > 0)` after a successful dequeue
(lines 59–125): discard stale entries, otherwise mark visited, emit the
`'visiting'` step, break on the target, else relax every neighbor and emit
the `'finished-node'` step.  `fail` is the `TypeError` raised by
`adj[currentNodeId].forEach` when `currentNodeId` is not a key of `adj`. -/
def dijkstraIterate (adj : AdjTable) (endNodeId : String) (st : LoopState)
    (dequeued : QueueEntry) (rest : List QueueEntry) : IterOut :=
  let currentNodeId := dequeued.nodeId
  let st1 : LoopState := { st with pq := rest }
  if st1.visited.contains currentNodeId then .more st1
  else
    let visited' := setAdd st1.visited currentNodeId
    let st2 : LoopState :=
      { st1 with
        visited := visited',
        steps := st1.steps ++
          [{ currentNodeId := some currentNodeId, type := .visiting,
             distances := st1.distances, visited := visited',
             path := none, neighbor := none, queue := rest }] }
    if currentNodeId = endNodeId then .halt st2
    else
      match alLookup adj currentNodeId with
      | none => .fail
      | some neighbors =>
        let st3 := neighbors.foldl (relaxNeighbor currentNodeId) st2
        .more
          { st3 with
            steps := st3.steps ++
              [{ currentNodeId := some currentNodeId, type := .finishedNode,
                 distances := st3.distances, visited := st3.visited,
                 path := none, neighbor := none, queue := st3.pq }] }

/-- The main loop `while (pq.length > 0) { ... }`, with explicit fuel (each
iteration consumes one unit; `dijkstra` supplies enough, see
`dijkstraLoop_no_fuel_error`). -/
def dijkstraLoop (adj : AdjTable) (endNodeId : String) :
    Nat → LoopState → Except JsError LoopState
  | 0, _ => .error .outOfFuel
  | fuel + 1, st =>
    match st.pq with
    | [] => .ok st
    | dequeued :: rest =>
      match dijkstraIterate adj endNodeId st dequeued rest with
      | .more st' => dijkstraLoop adj endNodeId fuel st'
      | .halt st' => .ok st'
      | .fail => .error .typeError

/-- The backward walk of the reconstruction loop
`while (current) { path.unshift(current); current = previous[current]; }`
after its first entry test.  A `previous` value that is `null`/`undefined`
or the empty string is falsy and exits the loop. -/
def walkPrevAux (previous : String → Option String) :
    Nat → String → List String → Option (List String)
  | 0, _, _ => none
  | fuel + 1, current, path =>
    let path' := current :: path
    match previous current with
    | none => some path'
    | some p => if p = "" then some path' else walkPrevAux previous fuel p path'

/-- Path reconstruction (lines 128–133): start from `endNodeId` (if truthy)
and follow `previous` backward, building the path front-first. -/
def reconstructPath (previous : String → Option String) (endNodeId : String)
    (fuel : Nat) : Option (List String) :=
  if endNodeId = "" then some [] else walkPrevAux previous fuel endNodeId []

/-- Fuel bound for the main loop: every iteration removes one queue entry,
and entries are only ever added while freshly visiting a node `u`, at most
`(adj[u]).length` many, each key of `adj` at most once. -/
def loopPotential (adj : AdjTable) (visited : List String)
    (pq : List QueueEntry) : Nat :=
  pq.length +
    ((adj.filter (fun kv => ¬ visited.contains kv.1)).map
      (fun kv => kv.2.length)).sum

/-- The loop state right before the first iteration: freshly initialised
tables, the queue holding `(startNodeId, 0)`, and the initial `'visiting'`
step (with `currentNodeId: null`) already emitted (lines 30–56). -/
def initialState (graph : Graph) (startNodeId : String) : LoopState :=
  { steps :=
      [{ currentNodeId := none, type := .visiting,
         distances := initDistances graph.nodes startNodeId,
         visited := [], path := none, neighbor := none,
         queue := pqEnqueue [] startNodeId 0 }],
    distances := initDistances graph.nodes startNodeId,
    previous := initPrevious graph.nodes, visited := [],
    pq := pqEnqueue [] startNodeId 0 }

/-- `dijkstra(graph, startNodeId, endNodeId)` from `dijkstra.ts`: the full
engine run, returning the emitted step list (or the modelled `TypeError`). -/
def dijkstra (graph : Graph) (startNodeId endNodeId : String) :
    Except JsError (List DijkstraStep) := do
  let adj ← insertEdges graph.edges (initAdj graph.nodes)
  let st0 := initialState graph startNodeId
  let final ← dijkstraLoop adj endNodeId (loopPotential adj [] st0.pq + 1) st0
  match reconstructPath final.previous endNodeId (graph.nodes.length + 1) with
  | none => .error .outOfFuel
  | some path =>
    if path.head? = some startNodeId then
      .ok (final.steps ++
        [{ currentNodeId := none, type := .path, distances := final.distances,
           visited := final.visited, path := some path, neighbor := none,
           queue := [] }])
    else
      .ok (final.steps ++
        [{ currentNodeId := none, type := .path, distances := final.distances,
           visited := final.visited, path := some [], neighbor := none,
           queue := [] }])

/-! ## Basic lemmas about the queue, sets and tables -/

theorem mem_pqEnqueue {values : List QueueEntry} {n : String} {d : JsNum}
    {e : QueueEntry} :
    e ∈ pqEnqueue values n d ↔ e ∈ values ∨ e = { nodeId := n, distance := d } := by
  unfold pqEnqueue
  rw [(List.perm_insertionSort entryLE _).mem_iff]
  simp

theorem pqEnqueue_sorted (values : List QueueEntry) (n : String) (d : JsNum) :
    List.Sorted entryLE (pqEnqueue values n d) :=
  List.sorted_insertionSort entryLE _

theorem pqEnqueue_length (values : List QueueEntry) (n : String) (d : JsNum) :
    (pqEnqueue values n d).length = values.length + 1 := by
  unfold pqEnqueue
  rw [(List.perm_insertionSort entryLE _).length_eq]
  simp

theorem mem_setAdd {visited : List String} {x a : String} :
    a ∈ setAdd visited x ↔ a ∈ visited ∨ a = x := by
  unfold setAdd
  split
  · rename_i h
    simp only [List.contains_eq_any_beq, List.any_eq_true, beq_iff_eq] at h
    obtain ⟨b, hb, rfl⟩ := h
    constructor
    · exact .inl
    · rintro (h | rfl) <;> assumption
  · simp

theorem setAdd_subset (visited : List String) (x : String) :
    visited ⊆ setAdd visited x := by
  intro a ha
  exact mem_setAdd.mpr (.inl ha)

theorem setAdd_nodup {visited : List String} (h : visited.Nodup) (x : String) :
    (setAdd visited x).Nodup := by
  unfold setAdd
  split
  · exact h
  · rename_i hx
    have hxv : x ∉ visited := by simpa using hx
    rw [List.nodup_append]
    refine ⟨h, List.nodup_singleton x, ?_⟩
    intro a ha hb
    simp only [List.mem_singleton] at hb
    subst hb
    exact hxv ha

theorem setAdd_of_not_mem {visited : List String} {x : String} (h : x ∉ visited) :
    setAdd visited x = visited ++ [x] := by
  unfold setAdd
  rw [if_neg]
  simpa using h

theorem contains_eq_true_iff {l : List String} {a : String} :
    l.contains a = true ↔ a ∈ l := by
  simp

theorem contains_eq_false_iff {l : List String} {a : String} :
    l.contains a = false ↔ a ∉ l := by
  simp

theorem alLookup_alSet_self {α : Type} (m : List (String × α)) (k : String) (v : α) :
    alLookup (alSet m k v) k = some v := by
  induction m with
  | nil => simp [alSet, alLookup]
  | cons kv rest ih =>
    obtain ⟨k', v'⟩ := kv
    by_cases h : k' = k
    · subst h
      simp [alSet, alLookup]
    · simp [alSet, alLookup, h, ih]

theorem alLookup_alSet_ne {α : Type} (m : List (String × α)) {k k' : String}
    (h : k ≠ k') (v : α) :
    alLookup (alSet m k v) k' = alLookup m k' := by
  induction m with
  | nil => simp [alSet, alLookup, h]
  | cons kv rest ih =>
    obtain ⟨k₀, v₀⟩ := kv
    by_cases h₀ : k₀ = k
    · subst h₀
      simp [alSet, alLookup, h]
    · simp only [alSet, if_neg h₀]
      by_cases h₁ : k₀ = k'
      · subst h₁
        simp [alLookup]
      · simp [alLookup, h₁, ih]

theorem alSet_keys {α : Type} (m : List (String × α)) (k : String) (v : α) :
    (alSet m k v).map Prod.fst =
      if k ∈ m.map Prod.fst then m.map Prod.fst else m.map Prod.fst ++ [k] := by
  induction m with
  | nil => simp [alSet]
  | cons kv rest ih =>
    obtain ⟨k₀, v₀⟩ := kv
    by_cases h₀ : k₀ = k
    · subst h₀
      simp [alSet]
    · simp only [alSet, if_neg h₀, List.map_cons]
      rw [ih]
      by_cases hk : k ∈ rest.map Prod.fst <;>
        simp [hk, Ne.symm h₀]

/-! ## The graph seen as a mathematical object

Reference definitions (used to state the claims): node identifiers,
well-formedness (the data-model invariant that edge endpoints reference
existing nodes), non-negativity of weights, adjacency, and weighted paths. -/

/-- The identifiers of the graph's nodes. -/
def nodeIds (g : Graph) : List String := g.nodes.map Node.id

/-- Data-model invariant (spec §3): every edge references existing nodes. -/
def Graph.WF (g : Graph) : Prop :=
  ∀ e ∈ g.edges, e.source ∈ nodeIds g ∧ e.target ∈ nodeIds g

/-- Data-model invariant (spec §3): weights are non-negative. -/
def Graph.NonnegWeights (g : Graph) : Prop := ∀ e ∈ g.edges, 0 ≤ e.weight

/-- Some edge of the list joins `u` and `v` with weight `w` (undirected
reading, matching the two symmetric insertions into the adjacency index). -/
def EdgeMem (edges : List Edge) (u v : String) (w : ℤ) : Prop :=
  ∃ e ∈ edges, e.weight = w ∧
    ((e.source = u ∧ e.target = v) ∨ (e.source = v ∧ e.target = u))

/-- `u` and `v` are joined by an edge of weight `w` (undirected reading). -/
def Adjacent (g : Graph) (u v : String) (w : ℤ) : Prop :=
  EdgeMem g.edges u v w

/-- `PathFrom g u v p c`: `p` is a walk from `u` to `v` along edges of `g`
whose chosen edge weights sum to `c`.  This is the reference notion of
path used to state shortest-path optimality. -/
inductive PathFrom (g : Graph) : String → String → List String → ℤ → Prop where
  | refl (u : String) (hu : u ∈ nodeIds g) : PathFrom g u u [u] 0
  | cons (u v t : String) (p : List String) (w c : ℤ)
      (huv : Adjacent g u v w) (hp : PathFrom g v t p c) :
      PathFrom g u t (u :: p) (w + c)

/-- `v` is connected to `u` in `g`. -/
def Reaches (g : Graph) (u v : String) : Prop := ∃ p c, PathFrom g u v p c

theorem Adjacent.symm {g : Graph} {u v : String} {w : ℤ}
    (h : Adjacent g u v w) : Adjacent g v u w := by
  obtain ⟨e, he, hw, h⟩ := h
  exact ⟨e, he, hw, h.symm⟩

theorem Adjacent.mem_left {g : Graph} {u v : String} {w : ℤ}
    (hwf : g.WF) (h : Adjacent g u v w) : u ∈ nodeIds g := by
  obtain ⟨e, he, _, h | h⟩ := h
  · rw [← h.1]
    exact (hwf e he).1
  · rw [← h.2]
    exact (hwf e he).2

theorem Adjacent.mem_right {g : Graph} {u v : String} {w : ℤ}
    (hwf : g.WF) (h : Adjacent g u v w) : v ∈ nodeIds g :=
  h.symm.mem_left hwf

theorem PathFrom.head_eq {g : Graph} {u v : String} {p : List String} {c : ℤ}
    (h : PathFrom g u v p c) : p.head? = some u := by
  cases h <;> rfl

theorem PathFrom.target_mem {g : Graph} {u v : String} {p : List String} {c : ℤ}
    (h : PathFrom g u v p c) : v ∈ nodeIds g := by
  induction h with
  | refl u hu => exact hu
  | cons u v t p w c huv hp ih => exact ih

theorem PathFrom.source_mem {g : Graph} {u v : String} {p : List String} {c : ℤ}
    (hwf : g.WF) (h : PathFrom g u v p c) : u ∈ nodeIds g := by
  cases h with
  | refl u hu => exact hu
  | cons u v t p w c huv hp => exact huv.mem_left hwf

theorem PathFrom.cost_nonneg {g : Graph} {u v : String} {p : List String} {c : ℤ}
    (hnn : g.NonnegWeights) (h : PathFrom g u v p c) : 0 ≤ c := by
  induction h with
  | refl u hu => exact le_refl 0
  | cons u v t p w c huv hp ih =>
    obtain ⟨e, he, hw, _⟩ := huv
    have := hnn e he
    omega

/-- Extend a path by one edge at the target end. -/
theorem PathFrom.snoc {g : Graph} {s u v : String} {p : List String} {c w : ℤ}
    (hwf : g.WF) (h : PathFrom g s u p c) (huv : Adjacent g u v w) :
    PathFrom g s v (p ++ [v]) (c + w) := by
  induction h with
  | refl x hx =>
    have : (0 : ℤ) + w = w + 0 := by ring
    rw [this]
    exact .cons x v v [v] w 0 huv (.refl v (huv.mem_right hwf))
  | cons x y t p w' c' hxy hp ih =>
    have : w' + c' + w = w' + (c' + w) := by ring
    rw [this]
    exact .cons x y v (p ++ [v]) w' (c' + w) hxy (ih huv)

/-- Any path leaving a set `V` of vertices (source inside, target outside)
crosses the boundary: it decomposes at the first vertex outside `V`. -/
theorem PathFrom.first_outside {g : Graph} {s v : String} {p : List String}
    {c : ℤ} (hwf : g.WF) (h : PathFrom g s v p c) (V : List String)
    (hs : s ∈ V) (hv : v ∉ V) :
    ∃ x y w p₁ p₂ c₁ c₂, x ∈ V ∧ y ∉ V ∧
      PathFrom g s x p₁ c₁ ∧ Adjacent g x y w ∧ PathFrom g y v p₂ c₂ ∧
      c = c₁ + (w + c₂) := by
  induction h with
  | refl u hu => exact absurd hs hv
  | cons u v' t p w c huv hp ih =>
    by_cases hv' : v' ∈ V
    · obtain ⟨x, y, w', p₁, p₂, c₁, c₂, hx, hy, h₁, hxy, h₂, hc⟩ := ih hv' hv
      refine ⟨x, y, w', u :: p₁, p₂, w + c₁, c₂, hx, hy, ?_, hxy, h₂, by omega⟩
      exact .cons u v' x p₁ w c₁ huv h₁
    · refine ⟨u, v', w, [u], p, 0, c, hs, hv', ?_, huv, hp, by omega⟩
      exact .refl u (huv.mem_left hwf)

/-! ## Characterisation of the initial tables -/

theorem initDistances_apply (nodes : List Node) (s x : String) :
    initDistances nodes s x =
      if x ∈ nodes.map Node.id then (if x = s then 0 else ⊤) else ⊤ := by
  unfold initDistances
  suffices h : ∀ d : String → JsNum,
      (nodes.foldl
        (fun (d : String → JsNum) (node : Node) =>
          Function.update d node.id (if node.id = s then 0 else ⊤)) d) x =
        if x ∈ nodes.map Node.id then (if x = s then 0 else ⊤) else d x by
    rw [h]
  induction nodes with
  | nil => simp
  | cons n ns ih =>
    intro d
    rw [List.foldl_cons, ih]
    by_cases hx : x ∈ ns.map Node.id
    · simp [hx]
    · by_cases hxn : x = n.id
      · subst hxn
        simp [hx, Function.update_same]
      · simp [hx, hxn, Function.update_noteq hxn]

theorem initPrevious_apply (nodes : List Node) (x : String) :
    initPrevious nodes x = none := by
  unfold initPrevious
  suffices h : ∀ p : String → Option String, (∀ y, p y = none) →
      (nodes.foldl
        (fun (p : String → Option String) (node : Node) =>
          Function.update p node.id none) p) x = none by
    exact h _ (fun _ => rfl)
  induction nodes with
  | nil =>
    intro p hp
    exact hp x
  | cons n ns ih =>
    intro p hp
    rw [List.foldl_cons]
    refine ih _ ?_
    intro y
    rw [Function.update_apply]
    split <;> simp [hp]

theorem alLookup_initAdj (nodes : List Node) (k : String) :
    alLookup (initAdj nodes) k =
      if k ∈ nodes.map Node.id then some [] else none := by
  unfold initAdj
  suffices h : ∀ m : AdjTable,
      alLookup (nodes.foldl (fun m node => alSet m node.id []) m) k =
        if k ∈ nodes.map Node.id then some [] else alLookup m k by
    rw [h, alLookup]
  induction nodes with
  | nil => simp [alLookup]
  | cons n ns ih =>
    intro m
    rw [List.foldl_cons, ih]
    by_cases hk : k ∈ ns.map Node.id
    · simp [hk]
    · by_cases hkn : k = n.id
      · subst hkn
        simp [hk, alLookup_alSet_self]
      · rw [alLookup_alSet_ne _ (fun h => hkn h.symm)]
        simp [hk, hkn]

/-! ## Characterisation of the adjacency index built by `insertEdges` -/

/-- Entry `{nodeId := v, weight := w}` occurs in `adj`'s list for `u`. -/
def adjMem (adj : AdjTable) (u v : String) (w : ℤ) : Prop :=
  ∃ l, alLookup adj u = some l ∧ { nodeId := v, weight := w } ∈ l

theorem alLookup_alSet {α : Type} (m : List (String × α)) (k k' : String) (v : α) :
    alLookup (alSet m k v) k' = if k' = k then some v else alLookup m k' := by
  by_cases h : k' = k
  · subst h
    simp [alLookup_alSet_self]
  · rw [alLookup_alSet_ne _ (fun hk => h hk.symm), if_neg h]

theorem alPush_eq {adj : AdjTable} {k : String} {l : List AdjEntry}
    (h : alLookup adj k = some l) (e : AdjEntry) :
    alPush adj k e = .ok (alSet adj k (l ++ [e])) := by
  unfold alPush
  rw [h]

theorem adjMem_alSet_append {adj : AdjTable} {k : String} {l : List AdjEntry}
    (h : alLookup adj k = some l) (e : AdjEntry) (u v : String) (w : ℤ) :
    adjMem (alSet adj k (l ++ [e])) u v w ↔
      adjMem adj u v w ∨ (u = k ∧ e = { nodeId := v, weight := w }) := by
  unfold adjMem
  by_cases hu : u = k
  · subst hu
    rw [alLookup_alSet_self]
    constructor
    · rintro ⟨l', hl', hm⟩
      rw [Option.some.injEq] at hl'
      subst hl'
      rcases List.mem_append.mp hm with h' | h'
      · exact .inl ⟨l, h, h'⟩
      · simp only [List.mem_singleton] at h'
        exact .inr ⟨rfl, h'.symm⟩
    · rintro (⟨l', hl', hm⟩ | ⟨-, rfl⟩)
      · rw [h, Option.some.injEq] at hl'
        subst hl'
        exact ⟨_, rfl, List.mem_append.mpr (.inl hm)⟩
      · exact ⟨_, rfl, List.mem_append.mpr (.inr (List.mem_singleton.mpr rfl))⟩
  · rw [alLookup_alSet_ne _ (fun hk => hu hk.symm)]
    simp [hu]

theorem alLookup_alSet_isSome {α : Type} (m : List (String × α)) {k : String}
    {v₀ : α} (hk : alLookup m k = some v₀) (v : α) (k' : String) :
    (alLookup (alSet m k v) k').isSome = (alLookup m k').isSome := by
  rw [alLookup_alSet]
  by_cases h : k' = k
  · subst h
    rw [if_pos rfl, hk]
    rfl
  · rw [if_neg h]

theorem insertEdges_spec (edges : List Edge) :
    ∀ adj : AdjTable,
      (∀ e ∈ edges, (alLookup adj e.source).isSome ∧ (alLookup adj e.target).isSome) →
      ∃ adj', insertEdges edges adj = .ok adj' ∧
        (∀ k, (alLookup adj' k).isSome = (alLookup adj k).isSome) ∧
        (∀ u v w, adjMem adj' u v w ↔ adjMem adj u v w ∨ EdgeMem edges u v w) := by
  induction edges with
  | nil =>
    intro adj _
    refine ⟨adj, rfl, fun _ => rfl, ?_⟩
    intro u v w
    simp [EdgeMem]
  | cons e es ih =>
    intro adj h
    obtain ⟨hs, ht⟩ := h e (List.mem_cons_self e es)
    obtain ⟨l₁, hl₁⟩ := Option.isSome_iff_exists.mp hs
    have hdom₁ : ∀ k,
        (alLookup (alSet adj e.source
          (l₁ ++ [{ nodeId := e.target, weight := e.weight }])) k).isSome =
          (alLookup adj k).isSome :=
      alLookup_alSet_isSome adj hl₁ _
    have ht₁ : (alLookup (alSet adj e.source
        (l₁ ++ [{ nodeId := e.target, weight := e.weight }])) e.target).isSome := by
      rw [hdom₁]
      exact ht
    obtain ⟨l₂, hl₂⟩ := Option.isSome_iff_exists.mp ht₁
    have hdom₂ : ∀ k,
        (alLookup (alSet (alSet adj e.source
          (l₁ ++ [{ nodeId := e.target, weight := e.weight }])) e.target
          (l₂ ++ [{ nodeId := e.source, weight := e.weight }])) k).isSome =
          (alLookup (alSet adj e.source
            (l₁ ++ [{ nodeId := e.target, weight := e.weight }])) k).isSome :=
      alLookup_alSet_isSome _ hl₂ _
    have hes : ∀ e' ∈ es,
        (alLookup (alSet (alSet adj e.source
          (l₁ ++ [{ nodeId := e.target, weight := e.weight }])) e.target
          (l₂ ++ [{ nodeId := e.source, weight := e.weight }])) e'.source).isSome ∧
        (alLookup (alSet (alSet adj e.source
          (l₁ ++ [{ nodeId := e.target, weight := e.weight }])) e.target
          (l₂ ++ [{ nodeId := e.source, weight := e.weight }])) e'.target).isSome := by
      intro e' he'
      rw [hdom₂, hdom₁, hdom₂, hdom₁]
      exact h e' (List.mem_cons_of_mem e he')
    obtain ⟨adj', hok, hdom', hmem'⟩ := ih _ hes
    refine ⟨adj', ?_, ?_, ?_⟩
    · show (do
        let m ← alPush adj e.source { nodeId := e.target, weight := e.weight }
        let m₂ ← alPush m e.target { nodeId := e.source, weight := e.weight }
        insertEdges es m₂) = Except.ok adj'
      rw [alPush_eq hl₁]
      show (do
        let m₂ ← alPush (alSet adj e.source
          (l₁ ++ [{ nodeId := e.target, weight := e.weight }])) e.target
            { nodeId := e.source, weight := e.weight }
        insertEdges es m₂) = Except.ok adj'
      rw [alPush_eq hl₂]
      exact hok
    · intro k
      rw [hdom' k, hdom₂, hdom₁]
    · intro u v w
      rw [hmem' u v w]
      rw [adjMem_alSet_append hl₂ { nodeId := e.source, weight := e.weight } u v w]
      rw [adjMem_alSet_append hl₁ { nodeId := e.target, weight := e.weight } u v w]
      have hEdge : EdgeMem (e :: es) u v w ↔
          ((e.weight = w ∧ ((e.source = u ∧ e.target = v) ∨ (e.source = v ∧ e.target = u))) ∨
            EdgeMem es u v w) := by
        unfold EdgeMem
        simp only [List.mem_cons]
        constructor
        · rintro ⟨e', (rfl | he'), hw, hst⟩
          · exact .inl ⟨hw, hst⟩
          · exact .inr ⟨e', he', hw, hst⟩
        · rintro (⟨hw, hst⟩ | ⟨e', he', hw, hst⟩)
          · exact ⟨e, .inl rfl, hw, hst⟩
          · exact ⟨e', .inr he', hw, hst⟩
      rw [hEdge]
      simp only [AdjEntry.mk.injEq]
      constructor
      · rintro (((hadj | ⟨hu, hv, hw⟩) | ⟨hu, hv, hw⟩) | hE)
        · exact .inl hadj
        · exact .inr (.inl ⟨hw, .inl ⟨hu.symm, hv⟩⟩)
        · exact .inr (.inl ⟨hw, .inr ⟨hv, hu.symm⟩⟩)
        · exact .inr (.inr hE)
      · rintro (hadj | (⟨hw, (⟨hu, hv⟩ | ⟨hv, hu⟩)⟩ | hE))
        · exact .inl (.inl (.inl hadj))
        · exact .inl (.inl (.inr ⟨hu.symm, hv, hw⟩))
        · exact .inl (.inr ⟨hu.symm, hv, hw⟩)
        · exact .inr hE

/-- What the successfully built adjacency index satisfies: its key set is the
node-identifier set, and its entries are exactly the undirected edge
incidences of the graph. -/
structure AdjSpec (g : Graph) (adj : AdjTable) : Prop where
  dom : ∀ k, (alLookup adj k).isSome ↔ k ∈ nodeIds g
  mem_iff : ∀ u v w, adjMem adj u v w ↔ Adjacent g u v w

theorem buildAdj_spec (g : Graph) (hwf : g.WF) :
    ∃ adj, insertEdges g.edges (initAdj g.nodes) = .ok adj ∧ AdjSpec g adj := by
  have hinit : ∀ e ∈ g.edges, (alLookup (initAdj g.nodes) e.source).isSome ∧
      (alLookup (initAdj g.nodes) e.target).isSome := by
    intro e he
    obtain ⟨hs, ht⟩ := hwf e he
    rw [alLookup_initAdj, alLookup_initAdj]
    unfold nodeIds at hs ht
    rw [if_pos hs, if_pos ht]
    exact ⟨rfl, rfl⟩
  obtain ⟨adj, hok, hdom, hmem⟩ := insertEdges_spec g.edges (initAdj g.nodes) hinit
  refine ⟨adj, hok, ?_, ?_⟩
  · intro k
    rw [hdom k, alLookup_initAdj]
    unfold nodeIds
    by_cases hk : k ∈ g.nodes.map Node.id <;> simp [hk]
  · intro u v w
    rw [hmem u v w]
    have hinit_mem : ¬ adjMem (initAdj g.nodes) u v w := by
      rintro ⟨l, hl, hm⟩
      rw [alLookup_initAdj] at hl
      by_cases hu : u ∈ g.nodes.map Node.id
      · rw [if_pos hu, Option.some.injEq] at hl
        subst hl
        exact absurd hm (List.not_mem_nil _)
      · rw [if_neg hu] at hl
        cases hl
    constructor
    · rintro (h | h)
      · exact absurd h hinit_mem
      · exact h
    · exact fun h => .inr h

theorem AdjSpec.lookup_of_mem {g : Graph} {adj : AdjTable} (h : AdjSpec g adj)
    {k : String} (hk : k ∈ nodeIds g) : ∃ l, alLookup adj k = some l :=
  Option.isSome_iff_exists.mp ((h.dom k).mpr hk)

theorem AdjSpec.neighbor_adjacent {g : Graph} {adj : AdjTable} (h : AdjSpec g adj)
    {c : String} {l : List AdjEntry} (hl : alLookup adj c = some l)
    {nb : AdjEntry} (hnb : nb ∈ l) : Adjacent g c nb.nodeId nb.weight :=
  (h.mem_iff c nb.nodeId nb.weight).mp ⟨l, hl, hnb⟩

theorem AdjSpec.adjacent_mem {g : Graph} {adj : AdjTable} (h : AdjSpec g adj)
    {c v : String} {w : ℤ} {l : List AdjEntry} (hl : alLookup adj c = some l)
    (hadj : Adjacent g c v w) : { nodeId := v, weight := w } ∈ l := by
  obtain ⟨l', hl', hm⟩ := (h.mem_iff c v w).mpr hadj
  rw [hl, Option.some.injEq] at hl'
  subst hl'
  exact hm

/-! ## Case lemmas for one relaxation of one neighbor -/

theorem relaxNeighbor_visited {c : String} {st : LoopState} {nb : AdjEntry}
    (h : nb.nodeId ∈ st.visited) : relaxNeighbor c st nb = st := by
  unfold relaxNeighbor
  rw [if_pos]
  exact contains_eq_true_iff.mpr h

theorem relaxNeighbor_no_update {c : String} {st : LoopState} {nb : AdjEntry}
    (h : nb.nodeId ∉ st.visited)
    (h2 : ¬ st.distances c + (nb.weight : JsNum) < st.distances nb.nodeId) :
    relaxNeighbor c st nb =
      { st with
        steps := st.steps ++
          [{ currentNodeId := some c, type := .neighbor,
             distances := st.distances, visited := st.visited,
             path := none, neighbor := some nb.nodeId, queue := st.pq }] } := by
  unfold relaxNeighbor
  rw [if_neg (by simpa using h)]
  exact if_neg h2

theorem relaxNeighbor_update {c : String} {st : LoopState} {nb : AdjEntry}
    (h : nb.nodeId ∉ st.visited)
    (h2 : st.distances c + (nb.weight : JsNum) < st.distances nb.nodeId) :
    relaxNeighbor c st nb =
      { steps := st.steps ++
          [{ currentNodeId := some c, type := .neighbor,
             distances := st.distances, visited := st.visited,
             path := none, neighbor := some nb.nodeId, queue := st.pq },
           { currentNodeId := some c, type := .neighbor,
             distances := Function.update st.distances nb.nodeId
               (st.distances c + (nb.weight : JsNum)),
             visited := st.visited,
             path := none, neighbor := some nb.nodeId,
             queue := pqEnqueue st.pq nb.nodeId
               (st.distances c + (nb.weight : JsNum)) }],
        distances := Function.update st.distances nb.nodeId
          (st.distances c + (nb.weight : JsNum)),
        previous := Function.update st.previous nb.nodeId (some c),
        visited := st.visited,
        pq := pqEnqueue st.pq nb.nodeId
          (st.distances c + (nb.weight : JsNum)) } := by
  unfold relaxNeighbor
  rw [if_neg (by simpa using h)]
  rw [if_pos h2]
  simp [List.append_assoc]

/-- Fields of the state that one relaxation step never changes, and the
monotone evolution of the ones it does change. -/
theorem relaxNeighbor_evolution (c : String) (st : LoopState) (nb : AdjEntry) :
    (relaxNeighbor c st nb).visited = st.visited ∧
    (∀ v, (relaxNeighbor c st nb).distances v ≤ st.distances v) ∧
    (∀ v, v ∈ st.visited →
      (relaxNeighbor c st nb).distances v = st.distances v) ∧
    (∀ v, (relaxNeighbor c st nb).previous v = none →
      st.previous v = none ∧
        (relaxNeighbor c st nb).distances v = st.distances v) ∧
    (∀ v, (relaxNeighbor c st nb).previous v = st.previous v ∨
      ((relaxNeighbor c st nb).previous v = some c ∧ v = nb.nodeId ∧
        v ∉ st.visited)) := by
  by_cases h : nb.nodeId ∈ st.visited
  · rw [relaxNeighbor_visited h]
    exact ⟨rfl, fun v => le_refl _, fun v _ => rfl, fun v h => ⟨h, rfl⟩,
      fun v => .inl rfl⟩
  · by_cases h2 : st.distances c + (nb.weight : JsNum) < st.distances nb.nodeId
    · rw [relaxNeighbor_update h h2]
      dsimp only
      refine ⟨rfl, ?_, ?_, ?_, ?_⟩
      · intro v
        by_cases hv : v = nb.nodeId
        · subst hv
          rw [Function.update_same]
          exact le_of_lt h2
        · rw [Function.update_noteq hv]
      · intro v hv
        have hv' : v ≠ nb.nodeId := fun heq => h (heq ▸ hv)
        rw [Function.update_noteq hv']
      · intro v hprev
        by_cases hv' : v = nb.nodeId
        · subst hv'
          rw [Function.update_same] at hprev
          cases hprev
        · rw [Function.update_noteq hv'] at hprev
          exact ⟨hprev, Function.update_noteq hv' _ _⟩
      · intro v
        by_cases hv : v = nb.nodeId
        · subst hv
          rw [Function.update_same]
          exact .inr ⟨rfl, rfl, h⟩
        · rw [Function.update_noteq hv]
          exact .inl rfl
    · rw [relaxNeighbor_no_update h h2]
      exact ⟨rfl, fun v => le_refl _, fun v _ => rfl, fun v h => ⟨h, rfl⟩,
        fun v => .inl rfl⟩

/-! ## The main-loop invariant -/

/-- All edges out of the visited region are relaxed. -/
def RelaxedAll (g : Graph) (st : LoopState) : Prop :=
  ∀ u ∈ st.visited, ∀ v w, Adjacent g u v w → v ∉ st.visited →
    st.distances v ≤ st.distances u + (w : JsNum)

/-- All edges out of the visited region are relaxed, except possibly those
leaving `c` (the node whose relaxation loop is in progress). -/
def RelaxedExcept (g : Graph) (c : String) (st : LoopState) : Prop :=
  ∀ u ∈ st.visited, u ≠ c → ∀ v w, Adjacent g u v w → v ∉ st.visited →
    st.distances v ≤ st.distances u + (w : JsNum)

/-- The adjacency entry `nb` of `c` has been relaxed (or its endpoint is
visited). -/
def RelaxedAt (c : String) (st : LoopState) (nb : AdjEntry) : Prop :=
  nb.nodeId ∈ st.visited ∨
    st.distances nb.nodeId ≤ st.distances c + (nb.weight : JsNum)

/-- The state invariant of the main loop, once the source has been visited.
It holds at every loop entry and (without the separate `RelaxedAll` part)
also at the early-termination exit. -/
structure Inv0 (g : Graph) (s : String) (st : LoopState) : Prop where
  src_visited : s ∈ st.visited
  visited_ids : ∀ u ∈ st.visited, u ∈ nodeIds g
  visited_nodup : st.visited.Nodup
  pq_sorted : List.Sorted entryLE st.pq
  pq_keys : ∀ en ∈ st.pq, en.nodeId ∈ nodeIds g
  pq_realizable : ∀ en ∈ st.pq,
    (∃ p c, PathFrom g s en.nodeId p c ∧ en.distance = (c : JsNum)) ∧
      st.distances en.nodeId ≤ en.distance
  dist_realizable : ∀ v, st.distances v ≠ ⊤ →
    ∃ p c, PathFrom g s v p c ∧ st.distances v = (c : JsNum)
  dist_src : st.distances s = 0
  prev_src : st.previous s = none
  visited_min : ∀ u ∈ st.visited, ∀ p c, PathFrom g s u p c →
    st.distances u ≤ (c : JsNum)
  visited_finite : ∀ u ∈ st.visited, st.distances u ≠ ⊤
  cover : ∀ v, v ∉ st.visited → st.distances v ≠ ⊤ →
    ∃ en ∈ st.pq, en.nodeId = v ∧ en.distance = st.distances v
  prev_some : ∀ v u, st.previous v = some u →
    u ∈ st.visited ∧
      (∃ w, Adjacent g u v w ∧
        st.distances v = st.distances u + (w : JsNum)) ∧
      (v ∈ st.visited → st.visited.indexOf u < st.visited.indexOf v)
  prev_none : ∀ v, st.previous v = none → v = s ∨ st.distances v = ⊤

theorem relaxNeighbor_inv0 {g : Graph} {s : String} (hwf : g.WF)
    {c : String} {st : LoopState} {nb : AdjEntry}
    (hc : c ∈ st.visited) (hadjnb : Adjacent g c nb.nodeId nb.weight)
    (hinv : Inv0 g s st) : Inv0 g s (relaxNeighbor c st nb) := by
  by_cases h : nb.nodeId ∈ st.visited
  · rw [relaxNeighbor_visited h]
    exact hinv
  · by_cases h2 : st.distances c + (nb.weight : JsNum) < st.distances nb.nodeId
    · have hcnb : c ≠ nb.nodeId := fun heq => h (heq ▸ hc)
      have hcand_top : st.distances c + (nb.weight : JsNum) ≠ ⊤ :=
        ne_top_of_lt (lt_of_lt_of_le h2 le_top)
      have hcfin : st.distances c ≠ ⊤ := hinv.visited_finite c hc
      obtain ⟨p₀, c₀, hp₀, hc₀⟩ := hinv.dist_realizable c hcfin
      have hcand_eq : st.distances c + (nb.weight : JsNum) =
          ((c₀ + nb.weight : ℤ) : JsNum) := by
        rw [hc₀]
        norm_cast
      have hpath : PathFrom g s nb.nodeId (p₀ ++ [nb.nodeId]) (c₀ + nb.weight) :=
        hp₀.snoc hwf hadjnb
      rw [relaxNeighbor_update h h2]
      refine { src_visited := hinv.src_visited, visited_ids := hinv.visited_ids,
               visited_nodup := hinv.visited_nodup,
               pq_sorted := pqEnqueue_sorted _ _ _,
               pq_keys := ?_, pq_realizable := ?_, dist_realizable := ?_,
               dist_src := ?_, prev_src := ?_, visited_min := ?_,
               visited_finite := ?_, cover := ?_, prev_some := ?_,
               prev_none := ?_ }
      ·
        intro en hen
        rcases mem_pqEnqueue.mp hen with hen | rfl
        · exact hinv.pq_keys en hen
        · exact hadjnb.mem_right hwf
      ·
        intro en hen
        dsimp only
        rcases mem_pqEnqueue.mp hen with hen | rfl
        · refine ⟨(hinv.pq_realizable en hen).1, ?_⟩
          by_cases hv : en.nodeId = nb.nodeId
          · rw [hv, Function.update_same]
            calc st.distances c + (nb.weight : JsNum)
                ≤ st.distances nb.nodeId := le_of_lt h2
              _ ≤ en.distance := by
                  rw [← hv]
                  exact (hinv.pq_realizable en hen).2
          · rw [Function.update_noteq hv]
            exact (hinv.pq_realizable en hen).2
        · dsimp only
          refine ⟨⟨_, _, hpath, hcand_eq⟩, ?_⟩
          rw [Function.update_same]
      ·
        intro v hv
        dsimp only at hv ⊢
        by_cases hvn : v = nb.nodeId
        · subst hvn
          rw [Function.update_same] at hv ⊢
          exact ⟨_, _, hpath, hcand_eq⟩
        · rw [Function.update_noteq hvn] at hv ⊢
          exact hinv.dist_realizable v hv
      ·
        dsimp only
        have hs : s ≠ nb.nodeId := fun heq => h (heq ▸ hinv.src_visited)
        rw [Function.update_noteq hs]
        exact hinv.dist_src
      ·
        dsimp only
        have hs : s ≠ nb.nodeId := fun heq => h (heq ▸ hinv.src_visited)
        rw [Function.update_noteq hs]
        exact hinv.prev_src
      ·
        intro u hu p c hp
        dsimp only
        have hun : u ≠ nb.nodeId := fun heq => h (heq ▸ hu)
        rw [Function.update_noteq hun]
        exact hinv.visited_min u hu p c hp
      ·
        intro u hu
        dsimp only
        have hun : u ≠ nb.nodeId := fun heq => h (heq ▸ hu)
        rw [Function.update_noteq hun]
        exact hinv.visited_finite u hu
      ·
        intro v hv hvt
        dsimp only at hvt ⊢
        by_cases hvn : v = nb.nodeId
        · subst hvn
          refine ⟨_, mem_pqEnqueue.mpr (.inr rfl), rfl, ?_⟩
          rw [Function.update_same]
        · rw [Function.update_noteq hvn] at hvt
          obtain ⟨en, hen, henv, hend⟩ := hinv.cover v hv hvt
          refine ⟨en, mem_pqEnqueue.mpr (.inl hen), henv, ?_⟩
          rw [Function.update_noteq hvn]
          exact hend
      ·
        intro v u hvu
        dsimp only at hvu ⊢
        by_cases hvn : v = nb.nodeId
        · subst hvn
          rw [Function.update_same, Option.some.injEq] at hvu
          subst hvu
          refine ⟨hc, ⟨nb.weight, hadjnb, ?_⟩, fun hmem => absurd hmem h⟩
          rw [Function.update_same, Function.update_noteq hcnb]
        · rw [Function.update_noteq hvn] at hvu
          obtain ⟨hu, ⟨w₀, hadj₀, hdist₀⟩, hord⟩ := hinv.prev_some v u hvu
          have hun : u ≠ nb.nodeId := fun heq => h (heq ▸ hu)
          refine ⟨hu, ⟨w₀, hadj₀, ?_⟩, hord⟩
          rw [Function.update_noteq hvn, Function.update_noteq hun]
          exact hdist₀
      ·
        intro v hv
        dsimp only at hv ⊢
        by_cases hvn : v = nb.nodeId
        · subst hvn
          rw [Function.update_same] at hv
          cases hv
        · rw [Function.update_noteq hvn] at hv
          rw [Function.update_noteq hvn]
          exact hinv.prev_none v hv
    · rw [relaxNeighbor_no_update h h2]
      exact { hinv with }

theorem relaxNeighbor_relaxedExcept {g : Graph} {c : String} {st : LoopState}
    {nb : AdjEntry} (hc : c ∈ st.visited)
    (h : RelaxedExcept g c st) : RelaxedExcept g c (relaxNeighbor c st nb) := by
  obtain ⟨hvis, hle, hfrozen, -, -⟩ := relaxNeighbor_evolution c st nb
  intro u hu hne v w hadj hv
  rw [hvis] at hu hv
  calc (relaxNeighbor c st nb).distances v
      ≤ st.distances v := hle v
    _ ≤ st.distances u + (w : JsNum) := h u hu hne v w hadj hv
    _ = (relaxNeighbor c st nb).distances u + (w : JsNum) := by
        rw [hfrozen u hu]

theorem relaxNeighbor_relaxedAt_self {c : String} {st : LoopState}
    {nb : AdjEntry} (hc : c ∈ st.visited) :
    RelaxedAt c (relaxNeighbor c st nb) nb := by
  by_cases h : nb.nodeId ∈ st.visited
  · rw [relaxNeighbor_visited h]
    exact .inl h
  · have hcnb : c ≠ nb.nodeId := fun heq => h (heq ▸ hc)
    by_cases h2 : st.distances c + (nb.weight : JsNum) < st.distances nb.nodeId
    · rw [relaxNeighbor_update h h2]
      right
      dsimp only
      rw [Function.update_same, Function.update_noteq hcnb]
    · rw [relaxNeighbor_no_update h h2]
      right
      dsimp only
      exact le_of_not_lt h2

theorem relaxNeighbor_relaxedAt_mono {g : Graph} {c : String} {st : LoopState}
    {nb nb' : AdjEntry} (hc : c ∈ st.visited)
    (h : RelaxedAt c st nb) : RelaxedAt c (relaxNeighbor c st nb') nb := by
  obtain ⟨hvis, hle, hfrozen, -, -⟩ := relaxNeighbor_evolution c st nb'
  rcases h with h | h
  · exact .inl (hvis ▸ h)
  · right
    calc (relaxNeighbor c st nb').distances nb.nodeId
        ≤ st.distances nb.nodeId := hle _
      _ ≤ st.distances c + (nb.weight : JsNum) := h
      _ = (relaxNeighbor c st nb').distances c + (nb.weight : JsNum) := by
          rw [hfrozen c hc]

/-- State evolution across the whole relaxation fold. -/
theorem relax_foldl_evolution (c : String) (nbs : List AdjEntry) :
    ∀ st : LoopState,
      (nbs.foldl (relaxNeighbor c) st).visited = st.visited ∧
      (∀ v, (nbs.foldl (relaxNeighbor c) st).distances v ≤ st.distances v) ∧
      (∀ v, v ∈ st.visited →
        (nbs.foldl (relaxNeighbor c) st).distances v = st.distances v) ∧
      (∀ v, (nbs.foldl (relaxNeighbor c) st).previous v = none →
        st.previous v = none ∧
          (nbs.foldl (relaxNeighbor c) st).distances v = st.distances v) := by
  induction nbs with
  | nil => exact fun st => ⟨rfl, fun v => le_refl _, fun v _ => rfl, fun v h => ⟨h, rfl⟩⟩
  | cons nb nbs ih =>
    intro st
    obtain ⟨hvis, hle, hfrozen, hnone, -⟩ := relaxNeighbor_evolution c st nb
    obtain ⟨ihvis, ihle, ihfrozen, ihnone⟩ := ih (relaxNeighbor c st nb)
    rw [List.foldl_cons]
    refine ⟨by rw [ihvis, hvis], ?_, ?_, ?_⟩
    · exact fun v => le_trans (ihle v) (hle v)
    · intro v hv
      rw [ihfrozen v (by rw [hvis]; exact hv), hfrozen v hv]
    · intro v hv
      obtain ⟨hv₁, hd₁⟩ := ihnone v hv
      obtain ⟨hv₂, hd₂⟩ := hnone v hv₁
      exact ⟨hv₂, by rw [hd₁, hd₂]⟩

theorem relax_foldl_relaxedAt_mono {g : Graph} {c : String} {nb : AdjEntry}
    (nbs : List AdjEntry) :
    ∀ st : LoopState, c ∈ st.visited → RelaxedAt c st nb →
      RelaxedAt c (nbs.foldl (relaxNeighbor c) st) nb := by
  induction nbs with
  | nil => exact fun st _ h => h
  | cons nb₂ nbs ih =>
    intro st hc h
    rw [List.foldl_cons]
    have hvis := (relaxNeighbor_evolution c st nb₂).1
    exact ih (relaxNeighbor c st nb₂) (hvis ▸ hc)
      (relaxNeighbor_relaxedAt_mono (g := g) hc h)

/-- The combined invariant transfer across the relaxation fold: the core
invariant and partial relaxedness are preserved, and afterwards every
processed adjacency entry is relaxed. -/
theorem relax_foldl_inv0 {g : Graph} {s : String} (hwf : g.WF)
    {c : String} (nbs : List AdjEntry) :
    ∀ st : LoopState, c ∈ st.visited →
      (∀ nb ∈ nbs, Adjacent g c nb.nodeId nb.weight) →
      Inv0 g s st → RelaxedExcept g c st →
      Inv0 g s (nbs.foldl (relaxNeighbor c) st) ∧
        RelaxedExcept g c (nbs.foldl (relaxNeighbor c) st) ∧
        (∀ nb ∈ nbs, RelaxedAt c (nbs.foldl (relaxNeighbor c) st) nb) := by
  induction nbs with
  | nil =>
    intro st hc hnbs hinv hexc
    exact ⟨hinv, hexc, fun nb hnb => absurd hnb (List.not_mem_nil nb)⟩
  | cons nb nbs ih =>
    intro st hc hnbs hinv hexc
    have hadjnb := hnbs nb (List.mem_cons_self nb nbs)
    have hvis₁ := (relaxNeighbor_evolution c st nb).1
    have hc₁ : c ∈ (relaxNeighbor c st nb).visited := hvis₁ ▸ hc
    obtain ⟨hinv', hexc', hall⟩ := ih (relaxNeighbor c st nb) hc₁
      (fun nb' hnb' => hnbs nb' (List.mem_cons_of_mem nb hnb'))
      (relaxNeighbor_inv0 hwf hc hadjnb hinv)
      (relaxNeighbor_relaxedExcept hc hexc)
    rw [List.foldl_cons]
    refine ⟨hinv', hexc', ?_⟩
    intro nb' hnb'
    rcases List.mem_cons.mp hnb' with heq | hnb'
    · -- the head entry: relaxed right after its own step, then preserved
      rw [heq]
      exact relax_foldl_relaxedAt_mono (g := g) nbs (relaxNeighbor c st nb) hc₁
        (relaxNeighbor_relaxedAt_self hc)
    · exact hall nb' hnb'

/-! ## Case lemmas for one loop iteration -/

theorem dijkstraIterate_stale {adj : AdjTable} {e : String} {st : LoopState}
    {dq : QueueEntry} {rest : List QueueEntry} (h : dq.nodeId ∈ st.visited) :
    dijkstraIterate adj e st dq rest = .more { st with pq := rest } := by
  unfold dijkstraIterate
  rw [if_pos (contains_eq_true_iff.mpr h)]

theorem dijkstraIterate_halt_eq {adj : AdjTable} {e : String} {st : LoopState}
    {dq : QueueEntry} {rest : List QueueEntry} (h : dq.nodeId ∉ st.visited)
    (he : dq.nodeId = e) :
    dijkstraIterate adj e st dq rest = .halt
      { steps := st.steps ++
          [{ currentNodeId := some dq.nodeId, type := .visiting,
             distances := st.distances, visited := setAdd st.visited dq.nodeId,
             path := none, neighbor := none, queue := rest }],
        distances := st.distances, previous := st.previous,
        visited := setAdd st.visited dq.nodeId, pq := rest } := by
  unfold dijkstraIterate
  rw [if_neg (by simpa using h), if_pos he]

theorem dijkstraIterate_fail_eq {adj : AdjTable} {e : String} {st : LoopState}
    {dq : QueueEntry} {rest : List QueueEntry} (h : dq.nodeId ∉ st.visited)
    (hne : dq.nodeId ≠ e) (hlk : alLookup adj dq.nodeId = none) :
    dijkstraIterate adj e st dq rest = .fail := by
  unfold dijkstraIterate
  rw [if_neg (by simpa using h), if_neg hne, hlk]

theorem dijkstraIterate_relax_eq {adj : AdjTable} {e : String} {st : LoopState}
    {dq : QueueEntry} {rest : List QueueEntry} {nbs : List AdjEntry}
    (h : dq.nodeId ∉ st.visited) (hne : dq.nodeId ≠ e)
    (hlk : alLookup adj dq.nodeId = some nbs) :
    dijkstraIterate adj e st dq rest = .more
      { nbs.foldl (relaxNeighbor dq.nodeId)
          { steps := st.steps ++
              [{ currentNodeId := some dq.nodeId, type := .visiting,
                 distances := st.distances,
                 visited := setAdd st.visited dq.nodeId,
                 path := none, neighbor := none, queue := rest }],
            distances := st.distances, previous := st.previous,
            visited := setAdd st.visited dq.nodeId, pq := rest } with
        steps :=
          (nbs.foldl (relaxNeighbor dq.nodeId)
            { steps := st.steps ++
                [{ currentNodeId := some dq.nodeId, type := .visiting,
                   distances := st.distances,
                   visited := setAdd st.visited dq.nodeId,
                   path := none, neighbor := none, queue := rest }],
              distances := st.distances, previous := st.previous,
              visited := setAdd st.visited dq.nodeId, pq := rest }).steps ++
            [{ currentNodeId := some dq.nodeId, type := .finishedNode,
               distances :=
                 (nbs.foldl (relaxNeighbor dq.nodeId)
                   { steps := st.steps ++
                       [{ currentNodeId := some dq.nodeId, type := .visiting,
                          distances := st.distances,
                          visited := setAdd st.visited dq.nodeId,
                          path := none, neighbor := none, queue := rest }],
                     distances := st.distances, previous := st.previous,
                     visited := setAdd st.visited dq.nodeId,
                     pq := rest }).distances,
               visited :=
                 (nbs.foldl (relaxNeighbor dq.nodeId)
                   { steps := st.steps ++
                       [{ currentNodeId := some dq.nodeId, type := .visiting,
                          distances := st.distances,
                          visited := setAdd st.visited dq.nodeId,
                          path := none, neighbor := none, queue := rest }],
                     distances := st.distances, previous := st.previous,
                     visited := setAdd st.visited dq.nodeId,
                     pq := rest }).visited,
               path := none, neighbor := none,
               queue :=
                 (nbs.foldl (relaxNeighbor dq.nodeId)
                   { steps := st.steps ++
                       [{ currentNodeId := some dq.nodeId, type := .visiting,
                          distances := st.distances,
                          visited := setAdd st.visited dq.nodeId,
                          path := none, neighbor := none, queue := rest }],
                     distances := st.distances, previous := st.previous,
                     visited := setAdd st.visited dq.nodeId,
                     pq := rest }).pq }] } := by
  unfold dijkstraIterate
  rw [if_neg (by simpa using h), if_neg hne, hlk]

/-- The greedy argument: when a fresh entry is dequeued from the sorted
queue, the tentative distance of its node is already optimal. -/
theorem fresh_dequeue_min {g : Graph} {s : String} (hwf : g.WF)
    (hnn : g.NonnegWeights) {st : LoopState} {dq : QueueEntry}
    {rest : List QueueEntry} (hpq : st.pq = dq :: rest)
    (hinv : Inv0 g s st) (hrel : RelaxedAll g st)
    (hfresh : dq.nodeId ∉ st.visited) :
    ∀ p c, PathFrom g s dq.nodeId p c →
      st.distances dq.nodeId ≤ (c : JsNum) := by
  intro p c hp
  obtain ⟨x, y, w, p₁, p₂, c₁, c₂, hx, hy, h₁, hxy, h₂, hc⟩ :=
    hp.first_outside hwf st.visited hinv.src_visited hfresh
  have hdx : st.distances x ≤ (c₁ : JsNum) := hinv.visited_min x hx p₁ c₁ h₁
  have hdy : st.distances y ≤ ((c₁ + w : ℤ) : JsNum) := by
    calc st.distances y
        ≤ st.distances x + (w : JsNum) := hrel x hx y w hxy hy
      _ ≤ (c₁ : JsNum) + (w : JsNum) := add_le_add_right hdx _
      _ = ((c₁ + w : ℤ) : JsNum) := by norm_cast
  have hytop : st.distances y ≠ ⊤ :=
    ne_top_of_le_ne_top WithTop.coe_ne_top hdy
  obtain ⟨en, hen, heny, hend⟩ := hinv.cover y hy hytop
  have hsorted := hinv.pq_sorted
  rw [hpq] at hsorted hen
  have hdqen : dq.distance ≤ en.distance := by
    rcases List.mem_cons.mp hen with heq | hen'
    · rw [heq]
    · exact List.rel_of_sorted_cons hsorted en hen'
  have hddq : st.distances dq.nodeId ≤ dq.distance :=
    (hinv.pq_realizable dq (by rw [hpq]; exact List.mem_cons_self dq rest)).2
  have hc₂ : 0 ≤ c₂ := h₂.cost_nonneg hnn
  calc st.distances dq.nodeId
      ≤ dq.distance := hddq
    _ ≤ en.distance := hdqen
    _ = st.distances y := hend
    _ ≤ ((c₁ + w : ℤ) : JsNum) := hdy
    _ ≤ (c : JsNum) := by
        rw [hc]
        exact WithTop.coe_le_coe.mpr (by omega)

/-- The state right after marking a freshly dequeued node visited satisfies
the core invariant (for any value of the emitted-steps field). -/
theorem visit_state_inv {g : Graph} {s : String} (hwf : g.WF)
    (hnn : g.NonnegWeights) {st : LoopState} {dq : QueueEntry}
    {rest : List QueueEntry} (hpq : st.pq = dq :: rest)
    (hinv : Inv0 g s st) (hrel : RelaxedAll g st)
    (hfresh : dq.nodeId ∉ st.visited) (stps : List DijkstraStep) :
    Inv0 g s
      { steps := stps, distances := st.distances, previous := st.previous,
        visited := setAdd st.visited dq.nodeId, pq := rest } := by
  have hdqmem : dq ∈ st.pq := by
    rw [hpq]
    exact List.mem_cons_self dq rest
  have hdqid : dq.nodeId ∈ nodeIds g := hinv.pq_keys dq hdqmem
  have hsorted := hinv.pq_sorted
  rw [hpq] at hsorted
  have hva : setAdd st.visited dq.nodeId = st.visited ++ [dq.nodeId] :=
    setAdd_of_not_mem hfresh
  have hfin : st.distances dq.nodeId ≠ ⊤ := by
    obtain ⟨⟨p', c', _, hdist⟩, hle⟩ := hinv.pq_realizable dq hdqmem
    exact ne_top_of_le_ne_top (hdist ▸ WithTop.coe_ne_top) hle
  refine
    { src_visited := setAdd_subset _ _ hinv.src_visited,
      visited_ids := ?_, visited_nodup := setAdd_nodup hinv.visited_nodup _,
      pq_sorted := hsorted.of_cons,
      pq_keys := fun en hen => hinv.pq_keys en (by rw [hpq]; exact List.mem_cons_of_mem dq hen),
      pq_realizable := fun en hen =>
        hinv.pq_realizable en (by rw [hpq]; exact List.mem_cons_of_mem dq hen),
      dist_realizable := hinv.dist_realizable,
      dist_src := hinv.dist_src, prev_src := hinv.prev_src,
      visited_min := ?_, visited_finite := ?_, cover := ?_,
      prev_some := ?_, prev_none := hinv.prev_none }
  · intro u hu
    rcases mem_setAdd.mp hu with hu | rfl
    · exact hinv.visited_ids u hu
    · exact hdqid
  · intro u hu p c hp
    rcases mem_setAdd.mp hu with hu | heq
    · exact hinv.visited_min u hu p c hp
    · subst heq
      exact fresh_dequeue_min hwf hnn hpq hinv hrel hfresh p c hp
  · intro u hu
    rcases mem_setAdd.mp hu with hu | heq
    · exact hinv.visited_finite u hu
    · subst heq
      exact hfin
  · intro v hv hvt
    have hvdq : v ≠ dq.nodeId := fun heq => hv (mem_setAdd.mpr (.inr heq))
    have hv' : v ∉ st.visited := fun h => hv (setAdd_subset _ _ h)
    obtain ⟨en, hen, henv, hend⟩ := hinv.cover v hv' hvt
    rw [hpq] at hen
    rcases List.mem_cons.mp hen with heq | hen'
    · exact absurd (henv.symm.trans (congrArg QueueEntry.nodeId heq)) hvdq
    · exact ⟨en, hen', henv, hend⟩
  · intro v u hvu
    obtain ⟨hu, hw, hord⟩ := hinv.prev_some v u hvu
    refine ⟨setAdd_subset _ _ hu, hw, ?_⟩
    intro hv
    rw [hva]
    rw [List.indexOf_append_of_mem hu]
    rcases mem_setAdd.mp hv with hv | heq
    · rw [List.indexOf_append_of_mem hv]
      exact hord hv
    · subst heq
      rw [List.indexOf_append_of_not_mem hfresh]
      have h1 : st.visited.indexOf u < st.visited.length :=
        List.indexOf_lt_length.mpr hu
      rw [List.indexOf_cons_self]
      omega

/-- If the freshly visited state satisfies the core invariant (and relaxation
of every node other than the current one), then after relaxing all neighbors
and emitting the finished-node step the full invariant holds again. -/
theorem relax_more_inv {g : Graph} {s : String} {adj : AdjTable} {e : String}
    {dq : QueueEntry} {rest : List QueueEntry} {nbs : List AdjEntry}
    {st : LoopState} (hwf : g.WF) (hadj : AdjSpec g adj)
    (hlk : alLookup adj dq.nodeId = some nbs)
    (hinv2 : Inv0 g s
      { steps := st.steps ++
          [{ currentNodeId := some dq.nodeId, type := .visiting,
             distances := st.distances,
             visited := setAdd st.visited dq.nodeId,
             path := none, neighbor := none, queue := rest }],
        distances := st.distances, previous := st.previous,
        visited := setAdd st.visited dq.nodeId, pq := rest })
    (hexc2 : RelaxedExcept g dq.nodeId
      { steps := st.steps ++
          [{ currentNodeId := some dq.nodeId, type := .visiting,
             distances := st.distances,
             visited := setAdd st.visited dq.nodeId,
             path := none, neighbor := none, queue := rest }],
        distances := st.distances, previous := st.previous,
        visited := setAdd st.visited dq.nodeId, pq := rest }) :
    ∀ st', dijkstraIterate adj e st dq rest = .more st' →
      dq.nodeId ∉ st.visited → dq.nodeId ≠ e →
      Inv0 g s st' ∧ RelaxedAll g st' := by
  intro st' h hfresh hne
  rw [dijkstraIterate_relax_eq hfresh hne hlk] at h
  rw [IterOut.more.injEq] at h
  subst h
  have hc2 : dq.nodeId ∈ (setAdd st.visited dq.nodeId) :=
    mem_setAdd.mpr (.inr rfl)
  have hnbs : ∀ nb ∈ nbs, Adjacent g dq.nodeId nb.nodeId nb.weight :=
    fun nb hnb => hadj.neighbor_adjacent hlk hnb
  obtain ⟨hinv3, hexc3, hat3⟩ :=
    relax_foldl_inv0 (s := s) hwf nbs _ hc2 hnbs hinv2 hexc2
  refine ⟨{ hinv3 with }, ?_⟩
  intro u hu v w hadj' hv'
  by_cases hu' : u = dq.nodeId
  · subst hu'
    have hmem : { nodeId := v, weight := w } ∈ nbs :=
      hadj.adjacent_mem hlk hadj'
    rcases hat3 _ hmem with hvis | hle
    · exact absurd hvis hv'
    · exact hle
  · exact hexc3 u hu hu' v w hadj' hv'

/-- Preservation of the invariant by one full loop iteration. -/
theorem dijkstraIterate_inv {g : Graph} {s : String} {adj : AdjTable}
    {e : String} {st : LoopState} {dq : QueueEntry} {rest : List QueueEntry}
    (hwf : g.WF) (hnn : g.NonnegWeights) (hadj : AdjSpec g adj)
    (hpq : st.pq = dq :: rest) (hinv : Inv0 g s st) (hrel : RelaxedAll g st) :
    (∀ st', dijkstraIterate adj e st dq rest = .more st' →
        Inv0 g s st' ∧ RelaxedAll g st') ∧
    (∀ st', dijkstraIterate adj e st dq rest = .halt st' →
        Inv0 g s st' ∧ dq.nodeId = e ∧ e ∈ st'.visited) ∧
    dijkstraIterate adj e st dq rest ≠ .fail := by
  by_cases hv : dq.nodeId ∈ st.visited
  · rw [dijkstraIterate_stale hv]
    refine ⟨?_, ?_, by simp⟩
    · intro st' h
      rw [IterOut.more.injEq] at h
      subst h
      constructor
      · refine
          { src_visited := hinv.src_visited, visited_ids := hinv.visited_ids,
            visited_nodup := hinv.visited_nodup, pq_sorted := ?_,
            pq_keys := ?_, pq_realizable := ?_,
            dist_realizable := hinv.dist_realizable,
            dist_src := hinv.dist_src, prev_src := hinv.prev_src,
            visited_min := hinv.visited_min,
            visited_finite := hinv.visited_finite, cover := ?_,
            prev_some := hinv.prev_some, prev_none := hinv.prev_none }
        · have := hinv.pq_sorted
          rw [hpq] at this
          exact this.of_cons
        · intro en hen
          exact hinv.pq_keys en (by rw [hpq]; exact List.mem_cons_of_mem dq hen)
        · intro en hen
          exact hinv.pq_realizable en (by rw [hpq]; exact List.mem_cons_of_mem dq hen)
        · intro v hv' hvt
          obtain ⟨en, hen, henv, hend⟩ := hinv.cover v hv' hvt
          rw [hpq] at hen
          rcases List.mem_cons.mp hen with heq | hen'
          · refine absurd ?_ hv'
            rw [← henv, heq]
            exact hv
          · exact ⟨en, hen', henv, hend⟩
      · exact hrel
    · intro st' h
      exact absurd h (by simp)
  · by_cases he : dq.nodeId = e
    · rw [dijkstraIterate_halt_eq hv he]
      refine ⟨fun st' h => absurd h (by simp), ?_, by simp⟩
      intro st' h
      rw [IterOut.halt.injEq] at h
      subst h
      refine ⟨visit_state_inv hwf hnn hpq hinv hrel hv _, he, ?_⟩
      rw [← he]
      exact mem_setAdd.mpr (.inr rfl)
    · cases hlk : alLookup adj dq.nodeId with
      | none =>
        exfalso
        have : (alLookup adj dq.nodeId).isSome :=
          (hadj.dom dq.nodeId).mpr
            (hinv.pq_keys dq (by rw [hpq]; exact List.mem_cons_self dq rest))
        rw [hlk] at this
        cases this
      | some nbs =>
        have hinv2 : Inv0 g s
            { steps := st.steps ++
                [{ currentNodeId := some dq.nodeId, type := .visiting,
                   distances := st.distances,
                   visited := setAdd st.visited dq.nodeId,
                   path := none, neighbor := none, queue := rest }],
              distances := st.distances, previous := st.previous,
              visited := setAdd st.visited dq.nodeId, pq := rest } :=
          visit_state_inv hwf hnn hpq hinv hrel hv _
        have hexc2 : RelaxedExcept g dq.nodeId
            { steps := st.steps ++
                [{ currentNodeId := some dq.nodeId, type := .visiting,
                   distances := st.distances,
                   visited := setAdd st.visited dq.nodeId,
                   path := none, neighbor := none, queue := rest }],
              distances := st.distances, previous := st.previous,
              visited := setAdd st.visited dq.nodeId, pq := rest } := by
          intro u hu hune v w hadj' hv'
          rcases mem_setAdd.mp hu with hu | heq
          · exact hrel u hu v w hadj'
              (fun hmem => hv' (setAdd_subset _ _ hmem))
          · exact absurd heq hune
        refine ⟨?_, ?_, ?_⟩
        · intro st' h
          exact relax_more_inv hwf hadj hlk hinv2 hexc2 st' h hv he
        · intro st' h
          rw [dijkstraIterate_relax_eq hv he hlk] at h
          exact absurd h (by simp)
        · rw [dijkstraIterate_relax_eq hv he hlk]
          simp

/-! ## From the initial state into the invariant -/

theorem pqEnqueue_nil (s : String) :
    pqEnqueue [] s 0 = [{ nodeId := s, distance := 0 }] := rfl

theorem setAdd_nil (s : String) : setAdd [] s = [s] := rfl

/-- The state after the very first iteration visits the start node satisfies
the core invariant. -/
theorem initial_visit_inv {g : Graph} {s : String} (hwf : g.WF)
    (hnn : g.NonnegWeights) (hs : s ∈ nodeIds g) (st : LoopState)
    (hd : st.distances = initDistances g.nodes s)
    (hp : st.previous = initPrevious g.nodes)
    (hv : st.visited = [s]) (hq : st.pq = []) : Inv0 g s st := by
  have hds : st.distances s = 0 := by
    rw [hd, initDistances_apply]
    unfold nodeIds at hs
    rw [if_pos hs, if_pos rfl]
  have hdother : ∀ v, v ≠ s → st.distances v = ⊤ := by
    intro v hvs
    rw [hd, initDistances_apply]
    by_cases hvm : v ∈ g.nodes.map Node.id
    · rw [if_pos hvm, if_neg hvs]
    · rw [if_neg hvm]
  refine
    { src_visited := by rw [hv]; exact List.mem_singleton.mpr rfl,
      visited_ids := ?_, visited_nodup := by rw [hv]; exact List.nodup_singleton s,
      pq_sorted := by rw [hq]; exact List.sorted_nil,
      pq_keys := by rw [hq]; intro en hen; exact absurd hen (List.not_mem_nil en),
      pq_realizable := by rw [hq]; intro en hen; exact absurd hen (List.not_mem_nil en),
      dist_realizable := ?_, dist_src := hds,
      prev_src := by rw [hp]; exact initPrevious_apply g.nodes s,
      visited_min := ?_, visited_finite := ?_, cover := ?_,
      prev_some := ?_, prev_none := ?_ }
  · intro u hu
    rw [hv, List.mem_singleton] at hu
    subst hu
    exact hs
  · intro v hvt
    by_cases hvs : v = s
    · subst hvs
      refine ⟨[v], 0, PathFrom.refl v hs, ?_⟩
      rw [hds]
      rfl
    · exact absurd (hdother v hvs) hvt
  · intro u hu p c hp'
    rw [hv, List.mem_singleton] at hu
    subst hu
    rw [hds]
    have hc : (0 : ℤ) ≤ c := hp'.cost_nonneg hnn
    exact_mod_cast WithTop.coe_le_coe.mpr hc
  · intro u hu
    rw [hv, List.mem_singleton] at hu
    subst hu
    rw [hds]
    exact (by simp : (0 : JsNum) ≠ ⊤)
  · intro v hvv hvt
    rw [hv] at hvv
    have hvs : v ≠ s := fun heq => hvv (List.mem_singleton.mpr heq)
    exact absurd (hdother v hvs) hvt
  · intro v u hvu
    rw [hp, initPrevious_apply] at hvu
    cases hvu
  · intro v hvn
    by_cases hvs : v = s
    · exact .inl hvs
    · exact .inr (hdother v hvs)

/-- Outcome of the very first loop iteration, starting from `initialState`. -/
theorem dijkstraIterate_init_inv {g : Graph} {s : String} {adj : AdjTable}
    {e : String} (hwf : g.WF) (hnn : g.NonnegWeights) (hadj : AdjSpec g adj)
    (hs : s ∈ nodeIds g) :
    (∀ st', dijkstraIterate adj e (initialState g s)
        { nodeId := s, distance := 0 } [] = .more st' →
        Inv0 g s st' ∧ RelaxedAll g st') ∧
    (∀ st', dijkstraIterate adj e (initialState g s)
        { nodeId := s, distance := 0 } [] = .halt st' →
        Inv0 g s st' ∧ s = e ∧ e ∈ st'.visited) ∧
    dijkstraIterate adj e (initialState g s)
      { nodeId := s, distance := 0 } [] ≠ .fail := by
  have hfresh : ({ nodeId := s, distance := 0 } : QueueEntry).nodeId ∉
      (initialState g s).visited := List.not_mem_nil s
  by_cases he : s = e
  · rw [dijkstraIterate_halt_eq hfresh he]
    refine ⟨fun st' h => absurd h (by simp), ?_, by simp⟩
    intro st' h
    rw [IterOut.halt.injEq] at h
    subst h
    refine ⟨initial_visit_inv hwf hnn hs _ rfl rfl rfl rfl, he, ?_⟩
    rw [← he]
    exact List.mem_singleton.mpr rfl
  · cases hlk : alLookup adj s with
    | none =>
      exfalso
      have : (alLookup adj s).isSome := (hadj.dom s).mpr hs
      rw [hlk] at this
      cases this
    | some nbs =>
      have hinv2 : Inv0 g s
          { steps := (initialState g s).steps ++
              [{ currentNodeId := some s, type := .visiting,
                 distances := (initialState g s).distances,
                 visited := setAdd (initialState g s).visited s,
                 path := none, neighbor := none, queue := [] }],
            distances := (initialState g s).distances,
            previous := (initialState g s).previous,
            visited := setAdd (initialState g s).visited s, pq := [] } :=
        initial_visit_inv hwf hnn hs _ rfl rfl rfl rfl
      have hexc2 : RelaxedExcept g s
          { steps := (initialState g s).steps ++
              [{ currentNodeId := some s, type := .visiting,
                 distances := (initialState g s).distances,
                 visited := setAdd (initialState g s).visited s,
                 path := none, neighbor := none, queue := [] }],
            distances := (initialState g s).distances,
            previous := (initialState g s).previous,
            visited := setAdd (initialState g s).visited s, pq := [] } := by
        intro u hu hune v w hadj' hv'
        have hu' : u ∈ setAdd (initialState g s).visited s := hu
        rcases mem_setAdd.mp hu' with hu'' | heq
        · exact absurd hu'' (List.not_mem_nil u)
        · exact absurd heq hune
      refine ⟨?_, ?_, ?_⟩
      · intro st' h
        exact relax_more_inv hwf hadj hlk hinv2 hexc2 st' h hfresh he
      · intro st' h
        rw [dijkstraIterate_relax_eq hfresh he hlk] at h
        exact absurd h (by simp)
      · rw [dijkstraIterate_relax_eq hfresh he hlk]
        simp

/-! ## The invariant through the whole loop -/

theorem dijkstraLoop_succ_nil {adj : AdjTable} {e : String} {fuel : Nat}
    {st : LoopState} (h : st.pq = []) :
    dijkstraLoop adj e (fuel + 1) st = .ok st := by
  conv_lhs => rw [dijkstraLoop]
  rw [h]

theorem dijkstraLoop_succ_cons {adj : AdjTable} {e : String} {fuel : Nat}
    {st : LoopState} {dq : QueueEntry} {rest : List QueueEntry}
    (h : st.pq = dq :: rest) :
    dijkstraLoop adj e (fuel + 1) st =
      match dijkstraIterate adj e st dq rest with
      | .more st' => dijkstraLoop adj e fuel st'
      | .halt st' => .ok st'
      | .fail => .error .typeError := by
  conv_lhs => rw [dijkstraLoop]
  rw [h]

/-- Any `.ok` exit of the loop, entered in the invariant, leaves the
invariant, with either an exhausted queue (full relaxation) or the target
visited (early termination). -/
theorem dijkstraLoop_ok_inv {g : Graph} {s : String} {adj : AdjTable}
    {e : String} (hwf : g.WF) (hnn : g.NonnegWeights) (hadj : AdjSpec g adj) :
    ∀ (fuel : Nat) (st : LoopState), Inv0 g s st → RelaxedAll g st →
      ∀ final, dijkstraLoop adj e fuel st = .ok final →
        Inv0 g s final ∧
          ((final.pq = [] ∧ RelaxedAll g final) ∨ e ∈ final.visited) := by
  intro fuel
  induction fuel with
  | zero =>
    intro st hinv hrel final h
    exact absurd h (by unfold dijkstraLoop; simp)
  | succ fuel ih =>
    intro st hinv hrel final h
    cases hpq : st.pq with
    | nil =>
      rw [dijkstraLoop_succ_nil hpq, Except.ok.injEq] at h
      subst h
      exact ⟨hinv, .inl ⟨hpq, hrel⟩⟩
    | cons dq rest =>
      rw [dijkstraLoop_succ_cons hpq] at h
      obtain ⟨hmore, hhalt, hfail⟩ := dijkstraIterate_inv hwf hnn hadj hpq hinv hrel
      cases hit : dijkstraIterate adj e st dq rest with
      | more st' =>
        rw [hit] at h
        obtain ⟨hinv', hrel'⟩ := hmore st' hit
        exact ih st' hinv' hrel' final h
      | halt st' =>
        rw [hit] at h
        rw [Except.ok.injEq] at h
        subst h
        obtain ⟨hinv', -, hmem⟩ := hhalt st' hit
        exact ⟨hinv', .inr hmem⟩
      | fail => exact absurd hit hfail

/-- The loop run by `dijkstra` itself: starting from the initial state. -/
theorem dijkstraLoop_init_inv {g : Graph} {s : String} {adj : AdjTable}
    {e : String} (hwf : g.WF) (hnn : g.NonnegWeights) (hadj : AdjSpec g adj)
    (hs : s ∈ nodeIds g) (fuel : Nat) (final : LoopState)
    (h : dijkstraLoop adj e (fuel + 1) (initialState g s) = .ok final) :
    Inv0 g s final ∧
      ((final.pq = [] ∧ RelaxedAll g final) ∨ e ∈ final.visited) := by
  have hpq : (initialState g s).pq = { nodeId := s, distance := 0 } :: [] := rfl
  rw [dijkstraLoop_succ_cons hpq] at h
  obtain ⟨hmore, hhalt, hfail⟩ := dijkstraIterate_init_inv (e := e) hwf hnn hadj hs
  cases hit : dijkstraIterate adj e (initialState g s)
      { nodeId := s, distance := 0 } [] with
  | more st' =>
    rw [hit] at h
    obtain ⟨hinv', hrel'⟩ := hmore st' hit
    exact dijkstraLoop_ok_inv hwf hnn hadj fuel st' hinv' hrel' final h
  | halt st' =>
    rw [hit] at h
    rw [Except.ok.injEq] at h
    subst h
    obtain ⟨hinv', -, hmem⟩ := hhalt st' hit
    exact ⟨hinv', .inr hmem⟩
  | fail => exact absurd hit hfail

/-! ## Decomposing a successful run -/

theorem exceptBind_ok {ε α β : Type} (a : α) (f : α → Except ε β) :
    (Except.ok a >>= f) = f a := rfl

theorem exceptBind_error {ε α β : Type} (e : ε) (f : α → Except ε β) :
    ((Except.error e : Except ε α) >>= f) = Except.error e := rfl


/-- Any successful run factors into: a successful adjacency build, a
successful loop run, a successful backward walk, and the final `'path'`
step appended to the loop's trace (with the empty-queue snapshot the code
hard-wires). -/
theorem dijkstra_ok_shape {g : Graph} {s t : String} {tr : List DijkstraStep}
    (h : dijkstra g s t = .ok tr) :
    ∃ adj final path,
      insertEdges g.edges (initAdj g.nodes) = .ok adj ∧
      dijkstraLoop adj t (loopPotential adj [] (initialState g s).pq + 1)
        (initialState g s) = .ok final ∧
      reconstructPath final.previous t (g.nodes.length + 1) = some path ∧
      ((path.head? = some s ∧
          tr = final.steps ++
            [{ currentNodeId := none, type := .path,
               distances := final.distances, visited := final.visited,
               path := some path, neighbor := none, queue := [] }]) ∨
        (path.head? ≠ some s ∧
          tr = final.steps ++
            [{ currentNodeId := none, type := .path,
               distances := final.distances, visited := final.visited,
               path := some [], neighbor := none, queue := [] }])) := by
  unfold dijkstra at h
  cases hadj : insertEdges g.edges (initAdj g.nodes) with
  | error err =>
    rw [hadj, exceptBind_error] at h
    cases h
  | ok adj =>
    rw [hadj, exceptBind_ok] at h
    dsimp only at h
    cases hloop : dijkstraLoop adj t
        (loopPotential adj [] (initialState g s).pq + 1) (initialState g s) with
    | error err =>
      rw [hloop, exceptBind_error] at h
      cases h
    | ok final =>
      rw [hloop, exceptBind_ok] at h
      cases hrec : reconstructPath final.previous t (g.nodes.length + 1) with
      | none =>
        rw [hrec] at h
        cases h
      | some path =>
        rw [hrec] at h
        dsimp only at h
        refine ⟨adj, final, path, rfl, hloop, hrec, ?_⟩
        by_cases hhead : path.head? = some s
        · rw [if_pos hhead, Except.ok.injEq] at h
          exact .inl ⟨hhead, h.symm⟩
        · rw [if_neg hhead, Except.ok.injEq] at h
          exact .inr ⟨hhead, h.symm⟩

/-- Converse of `dijkstra_ok_shape`: successful stages assemble into the
full successful run. -/
theorem dijkstra_run_eq {g : Graph} {s t : String} {adj : AdjTable}
    {final : LoopState} {path : List String}
    (hadj : insertEdges g.edges (initAdj g.nodes) = .ok adj)
    (hloop : dijkstraLoop adj t (loopPotential adj [] (initialState g s).pq + 1)
      (initialState g s) = .ok final)
    (hrec : reconstructPath final.previous t (g.nodes.length + 1) = some path) :
    dijkstra g s t = .ok (final.steps ++
      [{ currentNodeId := none, type := .path,
         distances := final.distances, visited := final.visited,
         path := some (if path.head? = some s then path else []),
         neighbor := none, queue := [] }]) := by
  unfold dijkstra
  rw [hadj, exceptBind_ok]
  dsimp only
  rw [hloop, exceptBind_ok, hrec]
  dsimp only
  by_cases hhead : path.head? = some s
  · rw [if_pos hhead, if_pos hhead]
  · rw [if_neg hhead, if_neg hhead]

/-! ## Fuel sufficiency: the loop never exhausts the fuel `dijkstra` supplies -/

theorem relaxNeighbor_pq_len (c : String) (st : LoopState) (nb : AdjEntry) :
    (relaxNeighbor c st nb).pq.length ≤ st.pq.length + 1 := by
  by_cases h : nb.nodeId ∈ st.visited
  · rw [relaxNeighbor_visited h]
    omega
  · by_cases h2 : st.distances c + (nb.weight : JsNum) < st.distances nb.nodeId
    · rw [relaxNeighbor_update h h2]
      dsimp only
      rw [pqEnqueue_length]
    · rw [relaxNeighbor_no_update h h2]
      dsimp only
      omega

theorem relax_foldl_pq_len (c : String) (nbs : List AdjEntry) :
    ∀ st : LoopState,
      (nbs.foldl (relaxNeighbor c) st).pq.length ≤ st.pq.length + nbs.length := by
  induction nbs with
  | nil =>
    intro st
    simp
  | cons nb nbs ih =>
    intro st
    rw [List.foldl_cons]
    calc (nbs.foldl (relaxNeighbor c) (relaxNeighbor c st nb)).pq.length
        ≤ (relaxNeighbor c st nb).pq.length + nbs.length := ih _
      _ ≤ st.pq.length + 1 + nbs.length := by
          have := relaxNeighbor_pq_len c st nb
          omega
      _ = st.pq.length + (nb :: nbs).length := by
          rw [List.length_cons]
          omega

theorem filter_sum_mono (visited : List String) (u : String)
    (adj : AdjTable) :
    ((adj.filter (fun kv => ¬ (setAdd visited u).contains kv.1)).map
      (fun kv => kv.2.length)).sum ≤
    ((adj.filter (fun kv => ¬ visited.contains kv.1)).map
      (fun kv => kv.2.length)).sum := by
  have hsub : List.Sublist
      (adj.filter (fun kv => ¬ (setAdd visited u).contains kv.1))
      (adj.filter (fun kv => ¬ visited.contains kv.1)) := by
    refine List.monotone_filter_right adj ?_
    intro kv h
    rw [decide_eq_true_eq] at h
    rw [decide_eq_true_eq]
    intro hc
    refine h ?_
    rw [contains_eq_true_iff] at hc ⊢
    exact setAdd_subset _ _ hc
  exact (hsub.map (fun kv => kv.2.length)).sum_le_sum (fun a _ => Nat.zero_le a)

theorem potential_sum_le {u : String} {nbs : List AdjEntry}
    (visited : List String) (hu : u ∉ visited) :
    ∀ adj : AdjTable, alLookup adj u = some nbs →
      ((adj.filter (fun kv => ¬ (setAdd visited u).contains kv.1)).map
          (fun kv => kv.2.length)).sum + nbs.length ≤
        ((adj.filter (fun kv => ¬ visited.contains kv.1)).map
          (fun kv => kv.2.length)).sum := by
  intro adj
  induction adj with
  | nil =>
    intro h
    cases h
  | cons kv rest ih =>
    obtain ⟨k, l⟩ := kv
    intro h
    by_cases hk : k = u
    · subst hk
      rw [alLookup, if_pos rfl, Option.some.injEq] at h
      subst h
      have hA : decide (¬ (setAdd visited k).contains k = true) = false := by
        rw [decide_eq_false_iff_not, not_not, contains_eq_true_iff]
        exact mem_setAdd.mpr (.inr rfl)
      have hB : decide (¬ visited.contains k = true) = true := by
        rw [decide_eq_true_eq]
        intro hc
        exact hu (contains_eq_true_iff.mp hc)
      simp only [List.filter_cons, hA, hB, if_false, if_true, Bool.false_eq_true,
        List.map_cons, List.sum_cons]
      have := filter_sum_mono visited k rest
      omega
    · rw [alLookup, if_neg hk] at h
      have hrec := ih h
      by_cases hm : k ∈ visited
      · have hA : decide (¬ (setAdd visited u).contains k = true) = false := by
          rw [decide_eq_false_iff_not, not_not, contains_eq_true_iff]
          exact setAdd_subset _ _ hm
        have hB : decide (¬ visited.contains k = true) = false := by
          rw [decide_eq_false_iff_not, not_not, contains_eq_true_iff]
          exact hm
        simp only [List.filter_cons, hA, hB, if_false, Bool.false_eq_true]
        exact hrec
      · have hA : decide (¬ (setAdd visited u).contains k = true) = true := by
          rw [decide_eq_true_eq]
          intro hc
          rcases mem_setAdd.mp (contains_eq_true_iff.mp hc) with hc' | hc'
          · exact hm hc'
          · exact hk hc'
        have hB : decide (¬ visited.contains k = true) = true := by
          rw [decide_eq_true_eq]
          intro hc
          exact hm (contains_eq_true_iff.mp hc)
        simp only [List.filter_cons, hA, hB, if_true, List.map_cons, List.sum_cons]
        omega

/-- A single fresh-relax iteration strictly decreases the potential. -/
theorem relax_more_potential {adj : AdjTable} {e : String} {st st' : LoopState}
    {dq : QueueEntry} {rest : List QueueEntry} {nbs : List AdjEntry}
    (hpq : st.pq = dq :: rest) (hfresh : dq.nodeId ∉ st.visited)
    (hne : dq.nodeId ≠ e) (hlk : alLookup adj dq.nodeId = some nbs)
    (h : dijkstraIterate adj e st dq rest = .more st') :
    loopPotential adj st'.visited st'.pq + 1 ≤
      loopPotential adj st.visited st.pq := by
  rw [dijkstraIterate_relax_eq hfresh hne hlk, IterOut.more.injEq] at h
  subst h
  unfold loopPotential
  have hvis := (relax_foldl_evolution dq.nodeId nbs
    { steps := st.steps ++
        [{ currentNodeId := some dq.nodeId, type := .visiting,
           distances := st.distances,
           visited := setAdd st.visited dq.nodeId,
           path := none, neighbor := none, queue := rest }],
      distances := st.distances, previous := st.previous,
      visited := setAdd st.visited dq.nodeId, pq := rest }).1
  have hlen := relax_foldl_pq_len dq.nodeId nbs
    { steps := st.steps ++
        [{ currentNodeId := some dq.nodeId, type := .visiting,
           distances := st.distances,
           visited := setAdd st.visited dq.nodeId,
           path := none, neighbor := none, queue := rest }],
      distances := st.distances, previous := st.previous,
      visited := setAdd st.visited dq.nodeId, pq := rest }
  have hsum := potential_sum_le st.visited hfresh adj hlk
  rw [hvis]
  rw [hpq]
  simp only [List.length_cons] at hlen ⊢
  omega

/-- Provided the invariant holds and the fuel dominates the potential, the
loop returns successfully. -/
theorem dijkstraLoop_ok_exists {g : Graph} {s : String} {adj : AdjTable}
    {e : String} (hwf : g.WF) (hnn : g.NonnegWeights) (hadj : AdjSpec g adj) :
    ∀ (fuel : Nat) (st : LoopState), Inv0 g s st → RelaxedAll g st →
      loopPotential adj st.visited st.pq < fuel →
      ∃ final, dijkstraLoop adj e fuel st = .ok final := by
  intro fuel
  induction fuel with
  | zero =>
    intro st _ _ hpot
    exact absurd hpot (by omega)
  | succ fuel ih =>
    intro st hinv hrel hpot
    cases hpq : st.pq with
    | nil => exact ⟨st, dijkstraLoop_succ_nil hpq⟩
    | cons dq rest =>
      obtain ⟨hmore, hhalt, hfail⟩ := dijkstraIterate_inv hwf hnn hadj hpq hinv hrel
      cases hit : dijkstraIterate adj e st dq rest with
      | halt st' =>
        refine ⟨st', ?_⟩
        rw [dijkstraLoop_succ_cons hpq, hit]
      | fail => exact absurd hit hfail
      | more st' =>
        obtain ⟨hinv', hrel'⟩ := hmore st' hit
        have hpot' : loopPotential adj st'.visited st'.pq < fuel := by
          by_cases hv : dq.nodeId ∈ st.visited
          · rw [dijkstraIterate_stale hv, IterOut.more.injEq] at hit
            subst hit
            unfold loopPotential at hpot ⊢
            dsimp only
            rw [hpq] at hpot
            simp only [List.length_cons] at hpot
            omega
          · by_cases he : dq.nodeId = e
            · rw [dijkstraIterate_halt_eq hv he] at hit
              exact absurd hit (by simp)
            · cases hlk : alLookup adj dq.nodeId with
              | none =>
                exfalso
                have : (alLookup adj dq.nodeId).isSome :=
                  (hadj.dom dq.nodeId).mpr
                    (hinv.pq_keys dq (by rw [hpq]; exact List.mem_cons_self dq rest))
                rw [hlk] at this
                cases this
              | some nbs =>
                have := relax_more_potential hpq hv he hlk hit
                omega
        obtain ⟨final, hfinal⟩ := ih st' hinv' hrel' hpot'
        refine ⟨final, ?_⟩
        rw [dijkstraLoop_succ_cons hpq, hit]
        exact hfinal

/-- The loop, with the fuel `dijkstra` supplies and from the initial state,
returns successfully. -/
theorem dijkstraLoop_init_ok {g : Graph} {s : String} {adj : AdjTable}
    {e : String} (hwf : g.WF) (hnn : g.NonnegWeights) (hadj : AdjSpec g adj)
    (hs : s ∈ nodeIds g) :
    ∃ final, dijkstraLoop adj e
      (loopPotential adj [] (initialState g s).pq + 1) (initialState g s) =
        .ok final := by
  have hpq : (initialState g s).pq = { nodeId := s, distance := 0 } :: [] := rfl
  obtain ⟨hmore, hhalt, hfail⟩ := dijkstraIterate_init_inv (e := e) hwf hnn hadj hs
  cases hit : dijkstraIterate adj e (initialState g s)
      { nodeId := s, distance := 0 } [] with
  | halt st' =>
    refine ⟨st', ?_⟩
    have hfuel : loopPotential adj [] (initialState g s).pq + 1 =
        loopPotential adj [] (initialState g s).pq + 1 := rfl
    rw [dijkstraLoop_succ_cons hpq, hit]
  | fail => exact absurd hit hfail
  | more st' =>
    obtain ⟨hinv', hrel'⟩ := hmore st' hit
    have hvis0 : (initialState g s).visited = [] := rfl
    have hpot' : loopPotential adj st'.visited st'.pq <
        loopPotential adj [] (initialState g s).pq := by
      have hfresh : ({ nodeId := s, distance := 0 } : QueueEntry).nodeId ∉
          (initialState g s).visited := List.not_mem_nil s
      by_cases he : s = e
      · rw [dijkstraIterate_halt_eq hfresh he] at hit
        exact absurd hit (by simp)
      · cases hlk : alLookup adj s with
        | none =>
          exfalso
          have : (alLookup adj s).isSome := (hadj.dom s).mpr hs
          rw [hlk] at this
          cases this
        | some nbs =>
          have := relax_more_potential hpq hfresh he hlk hit
          rw [hvis0] at this
          omega
    obtain ⟨final, hfinal⟩ := dijkstraLoop_ok_exists hwf hnn hadj
      (loopPotential adj [] (initialState g s).pq) st' hinv' hrel' hpot'
    refine ⟨final, ?_⟩
    rw [dijkstraLoop_succ_cons hpq, hit]
    exact hfinal

/-! ## Path reconstruction: termination and correctness of the walk -/

theorem walk_some {g : Graph} {s : String} {st : LoopState}
    (hinv : Inv0 g s st) :
    ∀ (fuel : Nat) (v : String) (acc : List String),
      (if v ∈ st.visited then st.visited.indexOf v else st.visited.length) + 1 ≤
        fuel →
      ∃ p, walkPrevAux st.previous fuel v acc = some p := by
  intro fuel
  induction fuel with
  | zero =>
    intro v acc hrank
    exact absurd hrank (by omega)
  | succ fuel ih =>
    intro v acc hrank
    cases hprev : st.previous v with
    | none =>
      refine ⟨v :: acc, ?_⟩
      rw [walkPrevAux, hprev]
    | some u =>
      by_cases hu0 : u = ""
      · refine ⟨v :: acc, ?_⟩
        rw [walkPrevAux, hprev]
        dsimp only
        rw [if_pos hu0]
      · obtain ⟨hu, -, hord⟩ := hinv.prev_some v u hprev
        have hrank' : (if u ∈ st.visited then st.visited.indexOf u
            else st.visited.length) + 1 ≤ fuel := by
          rw [if_pos hu]
          by_cases hv : v ∈ st.visited
          · rw [if_pos hv] at hrank
            have := hord hv
            omega
          · rw [if_neg hv] at hrank
            have := List.indexOf_lt_length.mpr hu
            omega
        obtain ⟨p, hp⟩ := ih u (v :: acc) hrank'
        refine ⟨p, ?_⟩
        rw [walkPrevAux, hprev]
        dsimp only
        rw [if_neg hu0]
        exact hp

theorem visited_length_le {g : Graph} {s : String} {st : LoopState}
    (hinv : Inv0 g s st) : st.visited.length ≤ g.nodes.length := by
  have h1 : List.Subperm st.visited (nodeIds g) :=
    List.subperm_of_subset hinv.visited_nodup
      (fun a ha => hinv.visited_ids a ha)
  have h2 := h1.length_le
  unfold nodeIds at h2
  rw [List.length_map] at h2
  exact h2

theorem reconstruct_some {g : Graph} {s : String} {st : LoopState}
    (hinv : Inv0 g s st) (t : String) :
    ∃ p, reconstructPath st.previous t (g.nodes.length + 1) = some p := by
  unfold reconstructPath
  by_cases ht : t = ""
  · exact ⟨[], by rw [if_pos ht]⟩
  · rw [if_neg ht]
    refine walk_some hinv (g.nodes.length + 1) t [] ?_
    have hlen := visited_length_le hinv
    by_cases hv : t ∈ st.visited
    · rw [if_pos hv]
      have := List.indexOf_lt_length.mpr hv
      omega
    · rw [if_neg hv]
      omega

/-- For a visited node, the backward walk over the predecessor table
produces an actual path from the source whose cost is the recorded
distance (provided no node identifier is the falsy empty string). -/
theorem walk_path {g : Graph} {s : String} {st : LoopState} (hwf : g.WF)
    (hinv : Inv0 g s st) (hids : "" ∉ nodeIds g) :
    ∀ (fuel : Nat) (v : String) (acc : List String), v ∈ st.visited →
      st.visited.indexOf v + 1 ≤ fuel →
      ∃ p c, walkPrevAux st.previous fuel v acc = some (p ++ acc) ∧
        PathFrom g s v p c ∧ st.distances v = ((c : ℤ) : JsNum) ∧
        p.head? = some s := by
  intro fuel
  induction fuel with
  | zero =>
    intro v acc hv hrank
    exact absurd hrank (by omega)
  | succ fuel ih =>
    intro v acc hv hrank
    cases hprev : st.previous v with
    | none =>
      have hvs : v = s := by
        rcases hinv.prev_none v hprev with h | h
        · exact h
        · exact absurd h (hinv.visited_finite v hv)
      subst hvs
      refine ⟨[v], 0, ?_, PathFrom.refl v (hinv.visited_ids v hv), ?_, rfl⟩
      · rw [walkPrevAux, hprev]
        rfl
      · rw [hinv.dist_src]
        rfl
    | some u =>
      obtain ⟨hu, ⟨w, hadj, hdv⟩, hord⟩ := hinv.prev_some v u hprev
      have hu0 : u ≠ "" := fun h => hids (h ▸ hinv.visited_ids u hu)
      have hrank' : st.visited.indexOf u + 1 ≤ fuel := by
        have := hord hv
        omega
      obtain ⟨p', c', hwalk, hp', hd', hh'⟩ := ih u (v :: acc) hu hrank'
      refine ⟨p' ++ [v], c' + w, ?_, hp'.snoc hwf hadj, ?_, ?_⟩
      · rw [walkPrevAux, hprev]
        dsimp only
        rw [if_neg hu0, hwalk, List.append_assoc]
        rfl
      · rw [hdv, hd']
        norm_cast
      · rcases hp'' : p' with _ | ⟨a, p''⟩
        · rw [hp''] at hh'
          cases hh'
        · rw [hp''] at hh'
          simpa using hh'

/-- With a well-formed graph, non-negative weights and an existing source,
`dijkstra` always returns a trace (no fault, and the embedding fuel is
sufficient).  The target may even be absent from the graph. -/
theorem dijkstra_ok_total {g : Graph} {s t : String} (hwf : g.WF)
    (hnn : g.NonnegWeights) (hs : s ∈ nodeIds g) :
    ∃ tr, dijkstra g s t = .ok tr := by
  obtain ⟨adj, hadjok, hadj⟩ := buildAdj_spec g hwf
  obtain ⟨final, hloop⟩ := dijkstraLoop_init_ok (e := t) hwf hnn hadj hs
  obtain ⟨hinv, -⟩ := dijkstraLoop_init_inv hwf hnn hadj hs _ final hloop
  obtain ⟨p, hrec⟩ := reconstruct_some hinv t
  exact ⟨_, dijkstra_run_eq hadjok hloop hrec⟩

/-! ## Final-state analysis -/

/-- At the end of the loop, the target has been visited exactly when it is
connected to the source. -/
theorem final_visited_iff_reaches {g : Graph} {s t : String}
    {final : LoopState} (hwf : g.WF) (hinv : Inv0 g s final)
    (hexit : (final.pq = [] ∧ RelaxedAll g final) ∨ t ∈ final.visited) :
    (t ∈ final.visited ↔ Reaches g s t) := by
  constructor
  · intro hv
    obtain ⟨p, c, hp, -⟩ :=
      hinv.dist_realizable t (hinv.visited_finite t hv)
    exact ⟨p, c, hp⟩
  · intro hreach
    by_contra hv
    rcases hexit with ⟨hpq0, hrel⟩ | hvv
    · obtain ⟨p, c, hp⟩ := hreach
      obtain ⟨x, y, w, p₁, p₂, c₁, c₂, hx, hy, h₁, hxy, h₂, hc⟩ :=
        hp.first_outside hwf final.visited hinv.src_visited hv
      have hdx : final.distances x ≠ ⊤ := hinv.visited_finite x hx
      have hdy : final.distances y ≠ ⊤ := by
        have hle : final.distances y ≤ final.distances x + (w : JsNum) :=
          hrel x hx y w hxy hy
        refine ne_top_of_le_ne_top ?_ hle
        exact WithTop.add_ne_top.mpr ⟨hdx, WithTop.coe_ne_top⟩
      obtain ⟨en, hen, -, -⟩ := hinv.cover y hy hdy
      rw [hpq0] at hen
      exact absurd hen (List.not_mem_nil en)
    · exact hv hvv

/-- If the target was never visited, its predecessor entry is still `null`. -/
theorem final_prev_none {g : Graph} {s t : String} {final : LoopState}
    (hinv : Inv0 g s final) (hreach : ¬ Reaches g s t) :
    final.previous t = none := by
  cases hprev : final.previous t with
  | none => rfl
  | some u =>
    exfalso
    obtain ⟨hu, ⟨w, hadj, hdv⟩, -⟩ := hinv.prev_some t u hprev
    have hdt : final.distances t ≠ ⊤ := by
      rw [hdv]
      exact WithTop.add_ne_top.mpr
        ⟨hinv.visited_finite u hu, WithTop.coe_ne_top⟩
    obtain ⟨p, c, hp, -⟩ := hinv.dist_realizable t hdt
    exact hreach ⟨p, c, hp⟩

/-- **C1 (amended).**  For a well-formed graph with non-negative weights
whose node identifiers are all nonempty, and source and target present in
the graph: the run succeeds, the terminal step is the `'path'` step, and it
carries an actual shortest path together with the optimal distance for the
target when the target is connected to the source, and the empty path
otherwise. -/
theorem dijkstra_terminal_shortest (g : Graph) (s t : String)
    (hwf : g.WF) (hnn : g.NonnegWeights) (hids : "" ∉ nodeIds g)
    (hs : s ∈ nodeIds g) (ht : t ∈ nodeIds g) :
    ∃ tr last, dijkstra g s t = .ok tr ∧ tr.getLast? = some last ∧
      last.type = .path ∧
      (Reaches g s t →
        ∃ p c, last.path = some p ∧ PathFrom g s t p c ∧
          last.distances t = ((c : ℤ) : JsNum) ∧
          ∀ p' c', PathFrom g s t p' c' → c ≤ c') ∧
      (¬ Reaches g s t → last.path = some []) := by
  obtain ⟨adj, hadjok, hadj⟩ := buildAdj_spec g hwf
  obtain ⟨final, hloop⟩ := dijkstraLoop_init_ok (e := t) hwf hnn hadj hs
  obtain ⟨hinv, hexit⟩ := dijkstraLoop_init_inv hwf hnn hadj hs _ final hloop
  have hvisiff := final_visited_iff_reaches hwf hinv hexit
  have ht0 : t ≠ "" := fun h => hids (h ▸ ht)
  by_cases hreach : Reaches g s t
  · -- the target was settled; the predecessor chain yields a shortest path
    have hvt : t ∈ final.visited := hvisiff.mpr hreach
    have hrank : final.visited.indexOf t + 1 ≤ g.nodes.length + 1 := by
      have h1 := List.indexOf_lt_length.mpr hvt
      have h2 := visited_length_le hinv
      omega
    obtain ⟨p, c, hwalk, hp, hd, hh⟩ :=
      walk_path hwf hinv hids (g.nodes.length + 1) t [] hvt hrank
    rw [List.append_nil] at hwalk
    have hrec : reconstructPath final.previous t (g.nodes.length + 1) =
        some p := by
      unfold reconstructPath
      rw [if_neg ht0]
      exact hwalk
    have hrun := dijkstra_run_eq hadjok hloop hrec
    rw [if_pos hh] at hrun
    refine ⟨_, _, hrun, List.getLast?_concat _, rfl, ?_, ?_⟩
    · intro _
      refine ⟨p, c, rfl, hp, hd, ?_⟩
      intro p' c' hp'
      have := hinv.visited_min t hvt p' c' hp'
      rw [hd] at this
      exact_mod_cast this
    · intro h
      exact absurd hreach h
  · -- unreachable target: empty terminal path
    have hvt : t ∉ final.visited := fun h => hreach (hvisiff.mp h)
    have hprev : final.previous t = none := final_prev_none hinv hreach
    have hrec : reconstructPath final.previous t (g.nodes.length + 1) =
        some [t] := by
      unfold reconstructPath
      rw [if_neg ht0, walkPrevAux, hprev]
    have hts : t ≠ s := by
      intro h
      subst h
      exact hvt hinv.src_visited
    have hhead : ([t].head? = some s) = False := by
      simp only [List.head?_cons, Option.some.injEq, eq_iff_iff, iff_false]
      exact hts
    have hrun := dijkstra_run_eq hadjok hloop hrec
    rw [if_neg (by rw [hhead]; exact not_false)] at hrun
    refine ⟨_, _, hrun, List.getLast?_concat _, rfl, ?_, ?_⟩
    · intro h
      exact absurd h hreach
    · intro _
      rfl

/-! ## Trace-level invariants -/

/-- The nodes of the non-initial `'visiting'` steps, in emission order (the
initial step has `currentNodeId: null` and is skipped by `filterMap`). -/
def visitingIds (steps : List DijkstraStep) : List String :=
  steps.filterMap
    (fun stp => if stp.type = StepType.visiting then stp.currentNodeId else none)

/-- Monotone evolution between two snapshots: the visited set only grows,
distances only shrink, and distances of already-visited nodes are frozen. -/
def StepEvolves (a b : DijkstraStep) : Prop :=
  (∀ n ∈ a.visited, n ∈ b.visited) ∧
  (∀ n, b.distances n ≤ a.distances n) ∧
  (∀ n ∈ a.visited, b.distances n = a.distances n)

instance : IsTrans DijkstraStep StepEvolves := by
  refine ⟨fun a b c hab hbc => ⟨?_, ?_, ?_⟩⟩
  · exact fun n hn => hbc.1 n (hab.1 n hn)
  · exact fun n => le_trans (hbc.2.1 n) (hab.2.1 n)
  · intro n hn
    rw [hbc.2.2 n (hab.1 n hn), hab.2.2 n hn]

/-- The greedy dequeue discipline, observed between consecutive steps: a
`'visiting'` step for `u` finds, in the previous step's queue snapshot, an
entry for `u` preceded only by stale entries and no smaller entry after
it. -/
def GreedyRel (a b : DijkstraStep) : Prop :=
  b.type = StepType.visiting → ∀ u, b.currentNodeId = some u →
    ∃ d pre post, a.queue = pre ++ { nodeId := u, distance := d } :: post ∧
      (∀ en ∈ pre, en.nodeId ∈ a.visited) ∧ u ∉ a.visited ∧ u ∈ b.visited ∧
      ∀ en ∈ post, d ≤ en.distance

/-- The trace-level loop invariant: the visiting steps list the visited set
in order, no `'path'` step is ever emitted by the loop, the trace is
non-empty and evolves monotonically, consecutive steps obey the greedy
discipline, and the last emitted snapshot dominates the live state. -/
structure TraceInv (st : LoopState) : Prop where
  tvis : visitingIds st.steps = st.visited
  tnodup : st.visited.Nodup
  tpath : ∀ stp ∈ st.steps, stp.type ≠ StepType.path
  tne : st.steps ≠ []
  tchain : List.Chain' StepEvolves st.steps
  tgreedy : List.Chain' GreedyRel st.steps
  tlastlive : ∀ stp, st.steps.getLast? = some stp →
    (∀ n ∈ stp.visited, n ∈ st.visited) ∧
    (∀ n, st.distances n ≤ stp.distances n) ∧
    (∀ n ∈ stp.visited, st.distances n = stp.distances n)
  tlastq : ∀ stp, st.steps.getLast? = some stp →
    ∃ pre, stp.queue = pre ++ st.pq ∧
      (∀ en ∈ pre, en.nodeId ∈ st.visited) ∧ stp.visited = st.visited
  tsorted : List.Sorted entryLE st.pq

theorem visitingIds_append (l₁ l₂ : List DijkstraStep) :
    visitingIds (l₁ ++ l₂) = visitingIds l₁ ++ visitingIds l₂ :=
  List.filterMap_append l₁ l₂ _

theorem chain'_append_singleton {α : Type} {R : α → α → Prop}
    {l : List α} {b : α} (hl : List.Chain' R l)
    (hlink : ∀ a, l.getLast? = some a → R a b) :
    List.Chain' R (l ++ [b]) := by
  refine List.Chain'.append hl (List.chain'_singleton b) ?_
  intro a ha y hy
  rw [List.head?_cons] at hy
  rw [Option.mem_def, Option.some.injEq] at hy
  subst hy
  rw [Option.mem_def] at ha
  exact hlink a ha

theorem visitingIds_single_skip {b : DijkstraStep}
    (h : b.type ≠ StepType.visiting) : visitingIds [b] = [] := by
  unfold visitingIds
  rw [List.filterMap_cons, if_neg h]
  rfl

theorem visitingIds_single_vis {b : DijkstraStep} {u : String}
    (h : b.type = StepType.visiting) (hu : b.currentNodeId = some u) :
    visitingIds [b] = [u] := by
  unfold visitingIds
  rw [List.filterMap_cons, if_pos h, hu]
  rfl

/-- Emitting a non-visiting, non-terminal step whose snapshots equal the
live state preserves the trace invariant. -/
theorem traceInv_emit {st : LoopState} (h : TraceInv st) (b : DijkstraStep)
    (hbty : b.type ≠ StepType.path) (hbty2 : b.type ≠ StepType.visiting)
    (hbd : b.distances = st.distances) (hbv : b.visited = st.visited)
    (hbq : b.queue = st.pq) :
    TraceInv { st with steps := st.steps ++ [b] } := by
  refine
    { tvis := ?_, tnodup := h.tnodup, tpath := ?_,
      tne := by simp, tchain := ?_, tgreedy := ?_,
      tlastlive := ?_, tlastq := ?_, tsorted := h.tsorted }
  · show visitingIds (st.steps ++ [b]) = st.visited
    rw [visitingIds_append, visitingIds_single_skip hbty2, List.append_nil]
    exact h.tvis
  · intro stp hstp
    rcases List.mem_append.mp hstp with hstp | hstp
    · exact h.tpath stp hstp
    · rw [List.mem_singleton] at hstp
      subst hstp
      exact hbty
  · refine chain'_append_singleton h.tchain ?_
    intro a ha
    obtain ⟨h1, h2, h3⟩ := h.tlastlive a ha
    refine ⟨?_, ?_, ?_⟩
    · rw [hbv]
      exact h1
    · intro n
      rw [hbd]
      exact h2 n
    · intro n hn
      rw [hbd]
      exact h3 n hn
  · refine chain'_append_singleton h.tgreedy ?_
    intro a ha hvisb
    exact absurd hvisb hbty2
  · intro stp hstp
    rw [List.getLast?_concat, Option.some.injEq] at hstp
    subst hstp
    refine ⟨?_, ?_, ?_⟩
    · rw [hbv]
      exact fun n hn => hn
    · intro n
      rw [hbd]
    · intro n hn
      rw [hbd]
  · intro stp hstp
    rw [List.getLast?_concat, Option.some.injEq] at hstp
    subst hstp
    exact ⟨[], by rw [hbq]; rfl, fun en hen => absurd hen (List.not_mem_nil en),
      hbv⟩

theorem relaxNeighbor_traceInv {c : String} {st : LoopState} {nb : AdjEntry}
    (hc : c ∈ st.visited) (h : TraceInv st) :
    TraceInv (relaxNeighbor c st nb) := by
  by_cases hv : nb.nodeId ∈ st.visited
  · rw [relaxNeighbor_visited hv]
    exact h
  · by_cases h2 : st.distances c + (nb.weight : JsNum) < st.distances nb.nodeId
    · rw [relaxNeighbor_update hv h2]
      have hcnb : c ≠ nb.nodeId := fun heq => hv (heq ▸ hc)
      have h1 : TraceInv
          { st with steps := st.steps ++
              [{ currentNodeId := some c, type := .neighbor,
                 distances := st.distances, visited := st.visited,
                 path := none, neighbor := some nb.nodeId,
                 queue := st.pq }] } :=
        traceInv_emit h _ (by intro hh; cases hh) (by intro hh; cases hh)
          rfl rfl rfl
      rw [show st.steps ++
          [{ currentNodeId := some c, type := StepType.neighbor,
             distances := st.distances, visited := st.visited,
             path := none, neighbor := some nb.nodeId, queue := st.pq },
           { currentNodeId := some c, type := StepType.neighbor,
             distances := Function.update st.distances nb.nodeId
               (st.distances c + (nb.weight : JsNum)),
             visited := st.visited,
             path := none, neighbor := some nb.nodeId,
             queue := pqEnqueue st.pq nb.nodeId
               (st.distances c + (nb.weight : JsNum)) }] =
          (st.steps ++
            [{ currentNodeId := some c, type := StepType.neighbor,
               distances := st.distances, visited := st.visited,
               path := none, neighbor := some nb.nodeId,
               queue := st.pq }]) ++
            [{ currentNodeId := some c, type := StepType.neighbor,
               distances := Function.update st.distances nb.nodeId
                 (st.distances c + (nb.weight : JsNum)),
               visited := st.visited,
               path := none, neighbor := some nb.nodeId,
               queue := pqEnqueue st.pq nb.nodeId
                 (st.distances c + (nb.weight : JsNum)) }]
          from by rw [List.append_assoc]; rfl]
      refine
        { tvis := ?_, tnodup := h.tnodup, tpath := ?_,
          tne := by simp, tchain := ?_, tgreedy := ?_,
          tlastlive := ?_, tlastq := ?_,
          tsorted := pqEnqueue_sorted _ _ _ }
      · show visitingIds (_ ++ [_]) = st.visited
        rw [visitingIds_append, visitingIds_single_skip (by intro hh; cases hh),
          List.append_nil]
        exact h1.tvis
      · intro stp hstp
        rcases List.mem_append.mp hstp with hstp | hstp
        · exact h1.tpath stp hstp
        · rw [List.mem_singleton] at hstp
          subst hstp
          intro hh
          cases hh
      · refine chain'_append_singleton h1.tchain ?_
        intro a ha
        obtain ⟨ha1, ha2, ha3⟩ := h1.tlastlive a ha
        dsimp only at ha1 ha2 ha3
        refine ⟨ha1, ?_, ?_⟩
        · intro n
          dsimp only
          refine le_trans ?_ (ha2 n)
          by_cases hn : n = nb.nodeId
          · subst hn
            rw [Function.update_same]
            exact le_of_lt h2
          · rw [Function.update_noteq hn]
        · intro n hn
          dsimp only
          rw [← ha3 n hn]
          have hn' : n ≠ nb.nodeId := fun heq => hv (heq ▸ ha1 n hn)
          rw [Function.update_noteq hn']
      · refine chain'_append_singleton h1.tgreedy ?_
        intro a ha hvisb
        exact absurd hvisb (by intro hh; cases hh)
      · intro stp hstp
        rw [List.getLast?_concat, Option.some.injEq] at hstp
        subst hstp
        exact ⟨fun n hn => hn, fun n => le_refl _, fun n hn => rfl⟩
      · intro stp hstp
        rw [List.getLast?_concat, Option.some.injEq] at hstp
        subst hstp
        exact ⟨[], rfl, fun en hen => absurd hen (List.not_mem_nil en), rfl⟩
    · rw [relaxNeighbor_no_update hv h2]
      exact traceInv_emit h _ (by intro hh; cases hh) (by intro hh; cases hh)
        rfl rfl rfl

theorem relax_foldl_traceInv {c : String} (nbs : List AdjEntry) :
    ∀ st : LoopState, c ∈ st.visited → TraceInv st →
      TraceInv (nbs.foldl (relaxNeighbor c) st) := by
  induction nbs with
  | nil => exact fun st _ h => h
  | cons nb nbs ih =>
    intro st hc h
    rw [List.foldl_cons]
    exact ih _ ((relaxNeighbor_evolution c st nb).1 ▸ hc)
      (relaxNeighbor_traceInv hc h)

/-- The block structure of the loop's trace (after the initial step): each
complete iteration contributes a `'visiting'` step, a run of `'neighbor'`
steps, and a `'finished-node'` step, all for the same node. -/
inductive VisitBlocks : List DijkstraStep → Prop where
  | nil : VisitBlocks []
  | block {vStep fStep : DijkstraStep} {nbSteps rest : List DijkstraStep}
      (u : String)
      (hv : vStep.type = StepType.visiting ∧ vStep.currentNodeId = some u)
      (hnb : ∀ stp ∈ nbSteps,
        stp.type = StepType.neighbor ∧ stp.currentNodeId = some u)
      (hf : fStep.type = StepType.finishedNode ∧ fStep.currentNodeId = some u)
      (hrest : VisitBlocks rest) :
      VisitBlocks (vStep :: nbSteps ++ fStep :: rest)

theorem VisitBlocks.append {l₁ l₂ : List DijkstraStep}
    (h₁ : VisitBlocks l₁) (h₂ : VisitBlocks l₂) : VisitBlocks (l₁ ++ l₂) := by
  induction h₁ with
  | nil => exact h₂
  | block u hv hnb hf hrest ih =>
    rename_i vStep fStep nbSteps rest
    show VisitBlocks (vStep :: ((nbSteps ++ fStep :: rest) ++ l₂))
    have heq : (nbSteps ++ fStep :: rest) ++ l₂ =
        nbSteps ++ fStep :: (rest ++ l₂) := by
      rw [List.append_assoc]
      rfl
    rw [heq]
    exact VisitBlocks.block u hv hnb hf ih

/-- The steps appended by the relaxation fold are all `'neighbor'` steps of
the current node. -/
theorem relax_foldl_steps (c : String) (nbs : List AdjEntry) :
    ∀ st : LoopState, ∃ tail,
      (nbs.foldl (relaxNeighbor c) st).steps = st.steps ++ tail ∧
      ∀ stp ∈ tail,
        stp.type = StepType.neighbor ∧ stp.currentNodeId = some c := by
  induction nbs with
  | nil =>
    intro st
    exact ⟨[], by rw [List.foldl_nil, List.append_nil],
      fun stp h => absurd h (List.not_mem_nil stp)⟩
  | cons nb nbs ih =>
    intro st
    rw [List.foldl_cons]
    obtain ⟨tail, htail, hall⟩ := ih (relaxNeighbor c st nb)
    have hone : ∃ tail₀, (relaxNeighbor c st nb).steps = st.steps ++ tail₀ ∧
        ∀ stp ∈ tail₀,
          stp.type = StepType.neighbor ∧ stp.currentNodeId = some c := by
      by_cases hv : nb.nodeId ∈ st.visited
      · rw [relaxNeighbor_visited hv]
        exact ⟨[], by rw [List.append_nil],
          fun stp h => absurd h (List.not_mem_nil stp)⟩
      · by_cases h2 : st.distances c + (nb.weight : JsNum) < st.distances nb.nodeId
        · rw [relaxNeighbor_update hv h2]
          refine ⟨_, rfl, ?_⟩
          intro stp hstp
          rcases List.mem_cons.mp hstp with heq | hstp
          · rw [heq]
            exact ⟨rfl, rfl⟩
          · rw [List.mem_singleton] at hstp
            rw [hstp]
            exact ⟨rfl, rfl⟩
        · rw [relaxNeighbor_no_update hv h2]
          refine ⟨_, rfl, ?_⟩
          intro stp hstp
          rw [List.mem_singleton] at hstp
          rw [hstp]
          exact ⟨rfl, rfl⟩
    obtain ⟨tail₀, htail₀, hall₀⟩ := hone
    refine ⟨tail₀ ++ tail, ?_, ?_⟩
    · rw [htail, htail₀, List.append_assoc]
    · intro stp hstp
      rcases List.mem_append.mp hstp with hstp | hstp
      · exact hall₀ stp hstp
      · exact hall stp hstp

/-- Emitting the fresh `'visiting'` step preserves the trace invariant. -/
theorem visit_traceInv {st : LoopState} {dq : QueueEntry}
    {rest : List QueueEntry} (hpq : st.pq = dq :: rest)
    (hfresh : dq.nodeId ∉ st.visited) (h : TraceInv st) :
    TraceInv
      { steps := st.steps ++
          [{ currentNodeId := some dq.nodeId, type := .visiting,
             distances := st.distances,
             visited := setAdd st.visited dq.nodeId,
             path := none, neighbor := none, queue := rest }],
        distances := st.distances, previous := st.previous,
        visited := setAdd st.visited dq.nodeId, pq := rest } := by
  have hsorted := h.tsorted
  rw [hpq] at hsorted
  refine
    { tvis := ?_, tnodup := setAdd_nodup h.tnodup _, tpath := ?_,
      tne := by simp, tchain := ?_, tgreedy := ?_,
      tlastlive := ?_, tlastq := ?_, tsorted := hsorted.of_cons }
  · show visitingIds (_ ++ [_]) = _
    rw [visitingIds_append, visitingIds_single_vis rfl rfl, h.tvis,
      setAdd_of_not_mem hfresh]
  · intro stp hstp
    rcases List.mem_append.mp hstp with hstp | hstp
    · exact h.tpath stp hstp
    · rw [List.mem_singleton] at hstp
      rw [hstp]
      intro hh
      cases hh
  · refine chain'_append_singleton h.tchain ?_
    intro a ha
    obtain ⟨ha1, ha2, ha3⟩ := h.tlastlive a ha
    exact ⟨fun n hn => setAdd_subset _ _ (ha1 n hn), ha2, ha3⟩
  · refine chain'_append_singleton h.tgreedy ?_
    intro a ha hvisb u hu
    rw [Option.some.injEq] at hu
    subst hu
    obtain ⟨pre, hq, hstale, hav⟩ := h.tlastq a ha
    refine ⟨dq.distance, pre, rest, ?_, ?_, ?_, ?_, ?_⟩
    · rw [hq, hpq]
    · intro en hen
      rw [hav]
      exact hstale en hen
    · rw [hav]
      exact hfresh
    · exact mem_setAdd.mpr (.inr rfl)
    · intro en hen
      exact List.rel_of_sorted_cons hsorted en hen
  · intro stp hstp
    rw [List.getLast?_concat, Option.some.injEq] at hstp
    subst hstp
    exact ⟨fun n hn => hn, fun n => le_refl _, fun n hn => rfl⟩
  · intro stp hstp
    rw [List.getLast?_concat, Option.some.injEq] at hstp
    subst hstp
    exact ⟨[], rfl, fun en hen => absurd hen (List.not_mem_nil en), rfl⟩

/-- The shape of the trace at every loop entry: the initial step (a
`'visiting'` record with `currentNodeId: null`) followed by complete visit
blocks. -/
def TShape (st : LoopState) : Prop :=
  ∃ stInit mid, st.steps = stInit :: mid ∧
    stInit.type = StepType.visiting ∧ stInit.currentNodeId = none ∧
    VisitBlocks mid

/-- One iteration preserves the trace invariant; a `'halt'` leaves the trace
as blocks plus one trailing `'visiting'` step for the target. -/
theorem dijkstraIterate_trace {adj : AdjTable} {e : String} {st : LoopState}
    {dq : QueueEntry} {rest : List QueueEntry} (hpq : st.pq = dq :: rest)
    (h : TraceInv st) (hsh : TShape st) :
    (∀ st', dijkstraIterate adj e st dq rest = .more st' →
        TraceInv st' ∧ TShape st') ∧
    (∀ st', dijkstraIterate adj e st dq rest = .halt st' →
        TraceInv st' ∧
        ∃ stInit mid vE, st'.steps = stInit :: mid ++ [vE] ∧
          stInit.type = StepType.visiting ∧ stInit.currentNodeId = none ∧
          VisitBlocks mid ∧ vE.type = StepType.visiting ∧
          vE.currentNodeId = some e ∧ e ∈ st'.visited) := by
  by_cases hv : dq.nodeId ∈ st.visited
  · rw [dijkstraIterate_stale hv]
    refine ⟨?_, fun st' hh => absurd hh (by simp)⟩
    intro st' hh
    rw [IterOut.more.injEq] at hh
    subst hh
    constructor
    · refine
        { tvis := h.tvis, tnodup := h.tnodup, tpath := h.tpath, tne := h.tne,
          tchain := h.tchain, tgreedy := h.tgreedy, tlastlive := h.tlastlive,
          tlastq := ?_, tsorted := ?_ }
      · intro stp hstp
        obtain ⟨pre, hq, hstale, hav⟩ := h.tlastq stp hstp
        refine ⟨pre ++ [dq], ?_, ?_, hav⟩
        · rw [hq, hpq, List.append_assoc]
          rfl
        · intro en hen
          rcases List.mem_append.mp hen with hen | hen
          · exact hstale en hen
          · rw [List.mem_singleton] at hen
            rw [hen]
            exact hv
      · have := h.tsorted
        rw [hpq] at this
        exact this.of_cons
    · exact hsh
  · by_cases he : dq.nodeId = e
    · rw [dijkstraIterate_halt_eq hv he]
      refine ⟨fun st' hh => absurd hh (by simp), ?_⟩
      intro st' hh
      rw [IterOut.halt.injEq] at hh
      subst hh
      obtain ⟨stInit, mid, hsteps, hty, hcur, hblocks⟩ := hsh
      refine ⟨visit_traceInv hpq hv h, stInit, mid,
        { currentNodeId := some dq.nodeId, type := StepType.visiting,
          distances := st.distances, visited := setAdd st.visited dq.nodeId,
          path := none, neighbor := none, queue := rest }, ?_, hty, hcur,
        hblocks, rfl, by rw [he], ?_⟩
      · show st.steps ++ [_] = stInit :: (mid ++ [_])
        rw [hsteps]
        rfl
      · rw [← he]
        exact mem_setAdd.mpr (.inr rfl)
    · cases hlk : alLookup adj dq.nodeId with
      | none =>
        rw [dijkstraIterate_fail_eq hv he hlk]
        exact ⟨fun st' hh => absurd hh (by simp),
          fun st' hh => absurd hh (by simp)⟩
      | some nbs =>
        rw [dijkstraIterate_relax_eq hv he hlk]
        refine ⟨?_, fun st' hh => absurd hh (by simp)⟩
        intro st' hh
        rw [IterOut.more.injEq] at hh
        subst hh
        have hV := visit_traceInv hpq hv h
        have hcV : dq.nodeId ∈ (setAdd st.visited dq.nodeId) :=
          mem_setAdd.mpr (.inr rfl)
        have h3 := relax_foldl_traceInv nbs _ hcV hV
        constructor
        · exact traceInv_emit h3 _ (by intro hh2; cases hh2)
            (by intro hh2; cases hh2) rfl rfl rfl
        · obtain ⟨stInit, mid, hsteps, hty, hcur, hblocks⟩ := hsh
          obtain ⟨tail, htail, halltail⟩ := relax_foldl_steps dq.nodeId nbs
            { steps := st.steps ++
                [{ currentNodeId := some dq.nodeId, type := .visiting,
                   distances := st.distances,
                   visited := setAdd st.visited dq.nodeId,
                   path := none, neighbor := none, queue := rest }],
              distances := st.distances, previous := st.previous,
              visited := setAdd st.visited dq.nodeId, pq := rest }
          set st3 : LoopState := nbs.foldl (relaxNeighbor dq.nodeId)
            { steps := st.steps ++
                [{ currentNodeId := some dq.nodeId, type := .visiting,
                   distances := st.distances,
                   visited := setAdd st.visited dq.nodeId,
                   path := none, neighbor := none, queue := rest }],
              distances := st.distances, previous := st.previous,
              visited := setAdd st.visited dq.nodeId, pq := rest } with hst3
          refine ⟨stInit,
            mid ++
              ({ currentNodeId := some dq.nodeId, type := StepType.visiting,
                 distances := st.distances,
                 visited := setAdd st.visited dq.nodeId,
                 path := none, neighbor := none, queue := rest } ::
               (tail ++
                [{ currentNodeId := some dq.nodeId,
                   type := StepType.finishedNode,
                   distances := st3.distances, visited := st3.visited,
                   path := none, neighbor := none, queue := st3.pq }])),
            ?_, hty, hcur, ?_⟩
          · dsimp only
            rw [htail]
            dsimp only
            rw [hsteps]
            simp only [List.cons_append, List.singleton_append,
              List.append_assoc, List.nil_append]
          · exact hblocks.append
              (VisitBlocks.block dq.nodeId ⟨rfl, rfl⟩ halltail ⟨rfl, rfl⟩
                VisitBlocks.nil)

/-- The initial state (after emitting the initial `'visiting'` step with
`currentNodeId: null`) satisfies the trace invariant and the block shape. -/
theorem initialState_trace (g : Graph) (s : String) :
    TraceInv (initialState g s) ∧ TShape (initialState g s) := by
  constructor
  · refine
      { tvis := rfl, tnodup := List.nodup_nil, tpath := ?_,
        tne := by simp [initialState], tchain := List.chain'_singleton _,
        tgreedy := List.chain'_singleton _, tlastlive := ?_, tlastq := ?_,
        tsorted := pqEnqueue_sorted [] s 0 }
    · intro stp hstp
      simp only [initialState, List.mem_singleton] at hstp
      subst hstp
      intro hc
      cases hc
    · intro stp hstp
      simp only [initialState, List.getLast?_singleton,
        Option.some.injEq] at hstp
      subst hstp
      exact ⟨fun n hn => absurd hn (List.not_mem_nil n),
        fun n => le_refl _, fun n hn => absurd hn (List.not_mem_nil n)⟩
    · intro stp hstp
      simp only [initialState, List.getLast?_singleton,
        Option.some.injEq] at hstp
      subst hstp
      exact ⟨[], rfl, fun en hen => absurd hen (List.not_mem_nil en), rfl⟩
  · refine ⟨_, [], rfl, ?_, ?_, VisitBlocks.nil⟩
    · rfl
    · rfl

/-- Any `.ok` exit of the loop, entered with the trace invariant and block
shape, leaves the trace invariant and either the block shape with an
exhausted queue, or blocks plus a trailing `'visiting'` step for the
visited target (early termination). -/
theorem dijkstraLoop_trace {adj : AdjTable} {e : String} :
    ∀ (fuel : Nat) (st : LoopState), TraceInv st → TShape st →
      ∀ final, dijkstraLoop adj e fuel st = .ok final →
        TraceInv final ∧
          ((TShape final ∧ final.pq = []) ∨
           (∃ stInit mid vE, final.steps = stInit :: mid ++ [vE] ∧
             stInit.type = StepType.visiting ∧
             stInit.currentNodeId = none ∧ VisitBlocks mid ∧
             vE.type = StepType.visiting ∧ vE.currentNodeId = some e ∧
             e ∈ final.visited)) := by
  intro fuel
  induction fuel with
  | zero =>
    intro st hinv hsh final h
    exact absurd h (by unfold dijkstraLoop; simp)
  | succ fuel ih =>
    intro st hinv hsh final h
    cases hpq : st.pq with
    | nil =>
      rw [dijkstraLoop_succ_nil hpq] at h
      rw [Except.ok.injEq] at h
      subst h
      exact ⟨hinv, .inl ⟨hsh, hpq⟩⟩
    | cons dq rest =>
      rw [dijkstraLoop_succ_cons hpq] at h
      obtain ⟨hmore, hhalt⟩ := dijkstraIterate_trace hpq hinv hsh
      cases hit : dijkstraIterate adj e st dq rest with
      | more st' =>
        rw [hit] at h
        obtain ⟨hinv', hsh'⟩ := hmore st' hit
        exact ih st' hinv' hsh' final h
      | halt st' =>
        rw [hit] at h
        rw [Except.ok.injEq] at h
        subst h
        obtain ⟨hinv', hshape⟩ := hhalt st' hit
        exact ⟨hinv', .inr hshape⟩
      | fail =>
        rw [hit] at h
        exact absurd h (by simp)

/-! ## Concrete graphs used as witnesses and counterexamples -/

/-- A four-node graph: `a—b` (1), `b—c` (2), `a—d` (1), `d—c` (4).  The
shortest path from `a` to `c` is `a, b, c` with cost 3. -/
def gq : Graph :=
  { nodes := [⟨"a", 0, 0, "A"⟩, ⟨"b", 1, 0, "B"⟩, ⟨"c", 1, 1, "C"⟩,
      ⟨"d", 0, 1, "D"⟩],
    edges := [⟨"e1", "a", "b", 1⟩, ⟨"e2", "b", "c", 2⟩, ⟨"e3", "a", "d", 1⟩,
      ⟨"e4", "d", "c", 4⟩] }

/-- A graph whose second node has the empty string as identifier, joined to
`a` by an edge of weight 1: the JS reconstruction loop treats the empty
string as falsy. -/
def gE : Graph :=
  { nodes := [⟨"a", 0, 0, "A"⟩, ⟨"", 1, 0, "E"⟩],
    edges := [⟨"e1", "a", "", 1⟩] }

/-- A single node whose identifier is the empty string. -/
def gE2 : Graph := { nodes := [⟨"", 0, 0, "E"⟩], edges := [] }

/-- A single node `b`; the identifier `x` does not exist in it. -/
def gM : Graph := { nodes := [⟨"b", 0, 0, "B"⟩], edges := [] }

/-- Two isolated nodes `a` and `b`: `b` is not connected to `a`. -/
def gI : Graph :=
  { nodes := [⟨"a", 0, 0, "A"⟩, ⟨"b", 1, 0, "B"⟩], edges := [] }

/-- A single node `a` with no edges. -/
def g9 : Graph := { nodes := [⟨"a", 0, 0, "A"⟩], edges := [] }

/-- Two nodes joined by one edge of weight 1. -/
def g2 : Graph :=
  { nodes := [⟨"a", 0, 0, "A"⟩, ⟨"b", 1, 0, "B"⟩],
    edges := [⟨"e1", "a", "b", 1⟩] }

/-! ## Remaining helper lemmas -/

instance (g : Graph) : Decidable g.WF :=
  inferInstanceAs
    (Decidable (∀ e ∈ g.edges, e.source ∈ nodeIds g ∧ e.target ∈ nodeIds g))

instance (g : Graph) : Decidable g.NonnegWeights :=
  inferInstanceAs (Decidable (∀ e ∈ g.edges, 0 ≤ e.weight))

theorem walkPrevAux_none {prev : String → Option String} {v : String}
    (hp : prev v = none) (fuel : Nat) (acc : List String) :
    walkPrevAux prev (fuel + 1) v acc = some (v :: acc) := by
  rw [walkPrevAux, hp]

theorem pathFrom_edgeless {g : Graph} (hne : g.edges = []) {u v : String}
    {p : List String} {c : ℤ} (h : PathFrom g u v p c) : u = v := by
  cases h with
  | refl u hu => rfl
  | cons u w tt p ww cc huv hp =>
    obtain ⟨e, he, -⟩ := huv
    rw [hne] at he
    exact absurd he (List.not_mem_nil e)

theorem mem_visitingIds {steps : List DijkstraStep} {stp : DijkstraStep}
    {u : String} (hmem : stp ∈ steps) (hty : stp.type = StepType.visiting)
    (hcur : stp.currentNodeId = some u) : u ∈ visitingIds steps := by
  unfold visitingIds
  exact List.mem_filterMap.mpr ⟨stp, hmem, by rw [if_pos hty, hcur]⟩

/-- Decomposition of a successful run: it is the trace of a loop final
state that satisfies the trace invariant, followed by the single terminal
`'path'` step, which snapshots the final tables but hard-codes an empty
queue; and the loop exited either with an exhausted queue and a complete
block trace, or by visiting the target. -/
theorem dijkstra_full_trace {g : Graph} {s t : String}
    {tr : List DijkstraStep} (h : dijkstra g s t = .ok tr) :
    ∃ final last, TraceInv final ∧ tr = final.steps ++ [last] ∧
      last.type = StepType.path ∧ last.queue = [] ∧
      last.currentNodeId = none ∧
      last.distances = final.distances ∧ last.visited = final.visited ∧
      (last.path = some [] ∨ ∃ p, last.path = some p ∧ p.head? = some s) ∧
      ((final.pq = [] ∧ TShape final) ∨
        (t ∈ final.visited ∧ ∃ stInit mid vE,
          final.steps = stInit :: mid ++ [vE] ∧
          stInit.type = StepType.visiting ∧ stInit.currentNodeId = none ∧
          VisitBlocks mid ∧ vE.type = StepType.visiting ∧
          vE.currentNodeId = some t)) := by
  obtain ⟨adj, final, path, hadjok, hloop, hrec, hcase⟩ := dijkstra_ok_shape h
  obtain ⟨hti, hts⟩ := initialState_trace g s
  obtain ⟨hinv, hexit⟩ := dijkstraLoop_trace _ _ hti hts final hloop
  have hexit' : (final.pq = [] ∧ TShape final) ∨
      (t ∈ final.visited ∧ ∃ stInit mid vE,
        final.steps = stInit :: mid ++ [vE] ∧
        stInit.type = StepType.visiting ∧ stInit.currentNodeId = none ∧
        VisitBlocks mid ∧ vE.type = StepType.visiting ∧
        vE.currentNodeId = some t) := by
    rcases hexit with ⟨hsh, hpq⟩ | ⟨stInit, mid, vE, hsteps, h1, h2, h3, h4, h5, h6⟩
    · exact .inl ⟨hpq, hsh⟩
    · exact .inr ⟨h6, stInit, mid, vE, hsteps, h1, h2, h3, h4, h5⟩
  rcases hcase with ⟨hhead, htr⟩ | ⟨hhead, htr⟩
  · exact ⟨final, _, hinv, htr, rfl, rfl, rfl, rfl, rfl,
      .inr ⟨path, rfl, hhead⟩, hexit'⟩
  · exact ⟨final, _, hinv, htr, rfl, rfl, rfl, rfl, rfl, .inl rfl, hexit'⟩

/-- Across the whole emitted step list, snapshots evolve monotonically:
visited only grows, distances only shrink, distances of visited nodes are
frozen. -/
theorem dijkstra_pairwise_evolves {g : Graph} {s t : String}
    {tr : List DijkstraStep} (h : dijkstra g s t = .ok tr) :
    List.Pairwise StepEvolves tr := by
  obtain ⟨final, last, hinv, htr, hty, hq, hcur, hd, hv, hpa, hexit⟩ :=
    dijkstra_full_trace h
  subst htr
  rw [← List.chain'_iff_pairwise]
  refine chain'_append_singleton hinv.tchain ?_
  intro a ha
  obtain ⟨h1, h2, h3⟩ := hinv.tlastlive a ha
  refine ⟨?_, ?_, ?_⟩
  · intro n hn
    rw [hv]
    exact h1 n hn
  · intro n
    rw [hd]
    exact h2 n
  · intro n hn
    rw [hd]
    exact h3 n hn

/-- The terminal step of a run whose predecessor walk does not lead back to
the source: the emitted trace ends with a `'path'` step carrying the empty
path. -/
theorem no_path_terminal {g : Graph} {s t : String} {adj : AdjTable}
    {final : LoopState}
    (hadjok : insertEdges g.edges (initAdj g.nodes) = .ok adj)
    (hloop : dijkstraLoop adj t (loopPotential adj [] (initialState g s).pq + 1)
      (initialState g s) = .ok final)
    (hts : t ≠ s) (hprev : final.previous t = none) :
    dijkstra g s t = .ok (final.steps ++
      [{ currentNodeId := none, type := .path, distances := final.distances,
         visited := final.visited, path := some [], neighbor := none,
         queue := [] }]) := by
  by_cases ht0 : t = ""
  · have hrec : reconstructPath final.previous t (g.nodes.length + 1) =
        some [] := by
      unfold reconstructPath
      rw [if_pos ht0]
    have hrun := dijkstra_run_eq hadjok hloop hrec
    rw [if_neg (by intro hc; cases hc)] at hrun
    exact hrun
  · have hrec : reconstructPath final.previous t (g.nodes.length + 1) =
        some [t] := by
      unfold reconstructPath
      rw [if_neg ht0]
      exact walkPrevAux_none hprev _ []
    have hrun := dijkstra_run_eq hadjok hloop hrec
    rw [if_neg (by rw [List.head?_cons, Option.some.injEq]; exact hts)] at hrun
    exact hrun

/-! ## The claims -/

/-- **C6.**  In every successful run, each node enters the visited set at
most once (the `'visiting'` steps name pairwise distinct nodes), and every
`'visiting'` step dequeues, from the queue snapshot of the preceding step,
an entry for a not-yet-visited node that is preceded only by stale entries
(nodes already visited, discarded without effect) and followed by no entry
of smaller tentative distance. -/
theorem dijkstra_visited_once_greedy {g : Graph} {s t : String}
    {tr : List DijkstraStep} (h : dijkstra g s t = .ok tr) :
    (visitingIds tr).Nodup ∧ List.Chain' GreedyRel tr := by
  obtain ⟨final, last, hinv, htr, hty, hq, hcur, hd, hv, hpa, hexit⟩ :=
    dijkstra_full_trace h
  subst htr
  constructor
  · rw [visitingIds_append,
      visitingIds_single_skip (by rw [hty]; intro hc; cases hc),
      List.append_nil, hinv.tvis]
    exact hinv.tnodup
  · refine chain'_append_singleton hinv.tgreedy ?_
    intro a ha hbv
    rw [hty] at hbv
    cases hbv

/-- Closed instance of C6 on the four-node graph `gq`. -/
theorem visited_once_greedy_witness :
    (visitingIds ((dijkstra gq "a" "c").toOption.getD [])).Nodup ∧
    List.Chain' GreedyRel ((dijkstra gq "a" "c").toOption.getD []) :=
  dijkstra_visited_once_greedy
    (show dijkstra gq "a" "c" =
      .ok ((dijkstra gq "a" "c").toOption.getD []) from rfl)

/-- **C7.**  In every successful run and for every node, the recorded
distance is non-increasing across the step sequence, every actual change
is a strict decrease, and once a node appears in a step's visited set its
distance never changes in any later step. -/
theorem dijkstra_distances_monotone {g : Graph} {s t : String}
    {tr : List DijkstraStep} (h : dijkstra g s t = .ok tr) :
    List.Pairwise (fun a b =>
      (∀ n, b.distances n ≤ a.distances n) ∧
      (∀ n, b.distances n ≠ a.distances n → b.distances n < a.distances n) ∧
      (∀ n ∈ a.visited, b.distances n = a.distances n)) tr := by
  refine (dijkstra_pairwise_evolves h).imp ?_
  intro a b hab
  exact ⟨hab.2.1, fun n hne => lt_of_le_of_ne (hab.2.1 n) hne, hab.2.2⟩

/-- Closed instance of C7 on the two-node graph `g2`. -/
theorem distances_monotone_witness :
    List.Pairwise (fun a b =>
      (∀ n, b.distances n ≤ a.distances n) ∧
      (∀ n, b.distances n ≠ a.distances n → b.distances n < a.distances n) ∧
      (∀ n ∈ a.visited, b.distances n = a.distances n))
      ((dijkstra g2 "a" "b").toOption.getD []) :=
  dijkstra_distances_monotone
    (show dijkstra g2 "a" "b" =
      .ok ((dijkstra g2 "a" "b").toOption.getD []) from rfl)

/-- **C8.**  In every successful run, the visited-set snapshots only grow
along the step sequence: a node present in the visited set of one step is
present in the visited set of every later step. -/
theorem dijkstra_visited_grows {g : Graph} {s t : String}
    {tr : List DijkstraStep} (h : dijkstra g s t = .ok tr) :
    List.Pairwise (fun a b => ∀ n ∈ a.visited, n ∈ b.visited) tr :=
  (dijkstra_pairwise_evolves h).imp (fun hab => hab.1)

/-- Closed instance of C8 on the four-node graph `gq`. -/
theorem visited_grows_witness :
    List.Pairwise (fun a b => ∀ n ∈ a.visited, n ∈ b.visited)
      ((dijkstra gq "a" "d").toOption.getD []) :=
  dijkstra_visited_grows
    (show dijkstra gq "a" "d" =
      .ok ((dijkstra gq "a" "d").toOption.getD []) from rfl)

/-- **C10.**  Every successful run ends with a terminal `'path'` step whose
queue snapshot is the empty list — the terminal step is built with a
hard-coded `queue: []`, never from the live queue. -/
theorem dijkstra_terminal_queue_empty {g : Graph} {s t : String}
    {tr : List DijkstraStep} (h : dijkstra g s t = .ok tr) :
    ∃ last, tr.getLast? = some last ∧ last.type = StepType.path ∧
      last.queue = [] := by
  obtain ⟨final, last, hinv, htr, hty, hq, hcur, hd, hv, hpa, hexit⟩ :=
    dijkstra_full_trace h
  subst htr
  exact ⟨last, by rw [List.getLast?_concat], hty, hq⟩

/-- Closed instance of C10 on `gq` with target `b`: the run terminates
early, while the live queue still holds an entry for `d`, and the terminal
step still reports an empty queue. -/
theorem terminal_queue_empty_witness :
    ∃ last, ((dijkstra gq "a" "b").toOption.getD []).getLast? = some last ∧
      last.type = StepType.path ∧ last.queue = [] :=
  dijkstra_terminal_queue_empty
    (show dijkstra gq "a" "b" =
      .ok ((dijkstra gq "a" "b").toOption.getD []) from rfl)

/-- C2 as stated is false: with target `b` adjacent to the source `a`, the
run ends as soon as `b` is dequeued, so the `'visiting'` step for `b`
(sixth step) is never followed by a `'finished-node'` step for `b` — the
only `'finished-node'` step of the run is for `a`. -/
theorem C2_counterexample :
    (dijkstra g2 "a" "b").map
        (fun tr => tr.map (fun stp => (stp.type, stp.currentNodeId))) =
      .ok [(StepType.visiting, none), (StepType.visiting, some "a"),
        (StepType.neighbor, some "a"), (StepType.neighbor, some "a"),
        (StepType.finishedNode, some "a"), (StepType.visiting, some "b"),
        (StepType.path, none)] ∧
    (dijkstra g2 "a" "b").map
        (fun tr => tr.filterMap (fun stp =>
          if stp.type = StepType.finishedNode then stp.currentNodeId
          else none)) = .ok ["a"] :=
  ⟨rfl, rfl⟩

/-- **C2 (amended).**  Every successful run's step sequence follows the
state machine: one initial `'visiting'` step with no current node, then
complete visit blocks (a `'visiting'` step, zero or more `'neighbor'` steps
for the same node, then its `'finished-node'` step), then — only when the
run terminated early at the target — a single trailing `'visiting'` step
for the target with no matching `'finished-node'` step, and finally exactly
one terminal `'path'` step, which ends the trace: no earlier step is a
`'path'` step. -/
theorem dijkstra_trace_state_machine {g : Graph} {s t : String}
    {tr : List DijkstraStep} (h : dijkstra g s t = .ok tr) :
    ∃ stInit mid tail last,
      tr = stInit :: (mid ++ (tail ++ [last])) ∧
      stInit.type = StepType.visiting ∧ stInit.currentNodeId = none ∧
      VisitBlocks mid ∧
      (tail = [] ∨ ∃ vE, tail = [vE] ∧ vE.type = StepType.visiting ∧
        vE.currentNodeId = some t) ∧
      last.type = StepType.path ∧
      (∀ stp ∈ stInit :: (mid ++ tail), stp.type ≠ StepType.path) := by
  obtain ⟨final, last, hinv, htr, hty, hq, hcur, hd, hv, hpa, hexit⟩ :=
    dijkstra_full_trace h
  rcases hexit with ⟨hpq, stInit, mid, hsteps, hsty, hscur, hblocks⟩ |
      ⟨hmem, stInit, mid, vE, hsteps, hsty, hscur, hblocks, hvty, hvcur⟩
  · refine ⟨stInit, mid, [], last, ?_, hsty, hscur, hblocks, .inl rfl, hty, ?_⟩
    · rw [htr, hsteps]
      rfl
    · intro stp hstp
      refine hinv.tpath stp ?_
      rw [hsteps]
      rw [List.append_nil] at hstp
      exact hstp
  · refine ⟨stInit, mid, [vE], last, ?_, hsty, hscur, hblocks,
      .inr ⟨vE, rfl, hvty, hvcur⟩, hty, ?_⟩
    · rw [htr, hsteps]
      simp [List.append_assoc]
    · intro stp hstp
      refine hinv.tpath stp ?_
      rw [hsteps]
      exact hstp

/-- Closed instance of the amended C2 on the four-node graph `gq`. -/
theorem trace_state_machine_witness :
    ∃ stInit mid tail last,
      (dijkstra gq "a" "c").toOption.getD [] =
        stInit :: (mid ++ (tail ++ [last])) ∧
      stInit.type = StepType.visiting ∧ stInit.currentNodeId = none ∧
      VisitBlocks mid ∧
      (tail = [] ∨ ∃ vE, tail = [vE] ∧ vE.type = StepType.visiting ∧
        vE.currentNodeId = some "c") ∧
      last.type = StepType.path ∧
      (∀ stp ∈ stInit :: (mid ++ tail), stp.type ≠ StepType.path) :=
  dijkstra_trace_state_machine
    (show dijkstra gq "a" "c" =
      .ok ((dijkstra gq "a" "c").toOption.getD []) from rfl)

/-- **C5.**  For a well-formed graph with non-negative weights, a source
present in the graph and a target not connected to it: the run halts
normally, the main loop runs until its queue empties, the terminal step's
path is the empty sequence, and no `'visiting'` step for the target ever
appears in the trace. -/
theorem dijkstra_unreachable_target (g : Graph) (s t : String) (hwf : g.WF)
    (hnn : g.NonnegWeights) (hs : s ∈ nodeIds g)
    (hreach : ¬ Reaches g s t) :
    ∃ adj final last,
      insertEdges g.edges (initAdj g.nodes) = .ok adj ∧
      dijkstraLoop adj t (loopPotential adj [] (initialState g s).pq + 1)
        (initialState g s) = .ok final ∧ final.pq = [] ∧
      dijkstra g s t = .ok (final.steps ++ [last]) ∧
      last.type = StepType.path ∧ last.path = some [] ∧
      ∀ stp ∈ final.steps ++ [last], stp.type = StepType.visiting →
        stp.currentNodeId ≠ some t := by
  obtain ⟨adj, hadjok, hadj⟩ := buildAdj_spec g hwf
  obtain ⟨final, hloop⟩ := dijkstraLoop_init_ok (e := t) hwf hnn hadj hs
  obtain ⟨hinv, hexit⟩ := dijkstraLoop_init_inv hwf hnn hadj hs _ final hloop
  have hnt : t ∉ final.visited := fun hvt =>
    hreach ((final_visited_iff_reaches hwf hinv hexit).mp hvt)
  have hpq : final.pq = [] := by
    rcases hexit with ⟨hpq, -⟩ | hvt
    · exact hpq
    · exact absurd hvt hnt
  have hts : t ≠ s := by
    intro hc
    apply hreach
    rw [hc]
    exact ⟨[s], 0, PathFrom.refl s hs⟩
  have hprev : final.previous t = none := final_prev_none hinv hreach
  obtain ⟨hti, htsh⟩ := initialState_trace g s
  obtain ⟨htr, -⟩ := dijkstraLoop_trace _ _ hti htsh final hloop
  refine ⟨adj, final, _, hadjok, hloop, hpq,
    no_path_terminal hadjok hloop hts hprev, rfl, rfl, ?_⟩
  intro stp hstp hsv
  rcases List.mem_append.mp hstp with hmem | hmem
  · intro hcur
    exact hnt (htr.tvis ▸ mem_visitingIds hmem hsv hcur)
  · rw [List.mem_singleton] at hmem
    subst hmem
    cases hsv

/-- Closed instance of C5 on the edgeless two-node graph `gI`. -/
theorem unreachable_target_witness :
    ∃ adj final last,
      insertEdges gI.edges (initAdj gI.nodes) = .ok adj ∧
      dijkstraLoop adj "b"
          (loopPotential adj [] (initialState gI "a").pq + 1)
          (initialState gI "a") = .ok final ∧ final.pq = [] ∧
      dijkstra gI "a" "b" = .ok (final.steps ++ [last]) ∧
      last.type = StepType.path ∧ last.path = some [] ∧
      ∀ stp ∈ final.steps ++ [last], stp.type = StepType.visiting →
        stp.currentNodeId ≠ some "b" :=
  dijkstra_unreachable_target gI "a" "b" (by decide) (by decide) (by decide)
    (fun hr => by
      obtain ⟨p, c, hp⟩ := hr
      exact absurd (pathFrom_edgeless rfl hp) (by decide))

/-- C3 as stated is false: a source identifier absent from the graph is a
hard fault, not a degenerate trace — `adj[current]` is `undefined` and the
`forEach` call throws a `TypeError`. -/
theorem C3_counterexample :
    "x" ∉ nodeIds gM ∧ dijkstra gM "x" "b" = .error JsError.typeError :=
  ⟨by decide, rfl⟩

/-- **C3 (amended).**  For a well-formed graph with non-negative weights:
a source absent from the graph and different from the target makes the run
throw a `TypeError` (a hard fault, from `adj[current].forEach` on an
`undefined` entry); a present source with an absent target terminates
normally with the `'no path found'` terminal step (empty path). -/
theorem dijkstra_missing_node (g : Graph) (s t : String) (hwf : g.WF)
    (hnn : g.NonnegWeights) :
    (s ∉ nodeIds g → s ≠ t → dijkstra g s t = .error .typeError) ∧
    (s ∈ nodeIds g → t ∉ nodeIds g →
      ∃ (final : LoopState) (last : DijkstraStep),
        dijkstra g s t = .ok (final.steps ++ [last]) ∧
        last.type = StepType.path ∧ last.path = some []) := by
  obtain ⟨adj, hadjok, hadj⟩ := buildAdj_spec g hwf
  constructor
  · intro hs hst
    have hlk : alLookup adj s = none := by
      rcases hl : alLookup adj s with _ | v
      · rfl
      · exact absurd ((hadj.dom s).mp (by rw [hl]; rfl)) hs
    have hpq : (initialState g s).pq =
        { nodeId := s, distance := 0 } :: [] := rfl
    have hfresh : ({ nodeId := s, distance := 0 } : QueueEntry).nodeId ∉
        (initialState g s).visited := List.not_mem_nil s
    unfold dijkstra
    rw [hadjok, exceptBind_ok]
    dsimp only
    rw [dijkstraLoop_succ_cons hpq, dijkstraIterate_fail_eq hfresh hst hlk]
    rfl
  · intro hs ht
    obtain ⟨final, hloop⟩ := dijkstraLoop_init_ok (e := t) hwf hnn hadj hs
    obtain ⟨hinv, -⟩ := dijkstraLoop_init_inv hwf hnn hadj hs _ final hloop
    have hreach : ¬ Reaches g s t := by
      rintro ⟨p, c, hp⟩
      exact ht hp.target_mem
    have hts : t ≠ s := fun hc => ht (hc ▸ hs)
    have hprev : final.previous t = none := final_prev_none hinv hreach
    exact ⟨final, _, no_path_terminal hadjok hloop hts hprev, rfl, rfl⟩

/-- Closed instance of the amended C3 on the one-node graph `gM` with the
absent identifiers `x` (source) and `y` (target). -/
theorem missing_node_witness :
    ("x" ∉ nodeIds gM → "x" ≠ "y" →
      dijkstra gM "x" "y" = .error .typeError) ∧
    ("x" ∈ nodeIds gM → "y" ∉ nodeIds gM →
      ∃ (final : LoopState) (last : DijkstraStep),
        dijkstra gM "x" "y" = .ok (final.steps ++ [last]) ∧
        last.type = StepType.path ∧ last.path = some []) :=
  dijkstra_missing_node gM "x" "y" (by decide) (by decide)

/-- C9 as stated is false when the node identifier is the empty string:
with `s = t = ""` the reconstruction loop's entry test `while (current)`
is falsy, so the terminal step carries the empty path instead of `[""]`. -/
theorem C9_counterexample :
    "" ∈ nodeIds gE2 ∧
    (dijkstra gE2 "" "").map
        (fun tr => tr.map (fun stp => (stp.type, stp.path))) =
      .ok [(StepType.visiting, none), (StepType.visiting, none),
        (StepType.path, some [])] ∧
    (([] : List String) = [""] → False) :=
  ⟨by decide, rfl, by decide⟩

/-- **C9 (amended).**  For a well-formed graph and a source `s` present in
it with a nonempty identifier, `dijkstra g s s` succeeds with the exact
three-step trace `initial 'visiting', 'visiting' s, terminal 'path'`: the
terminal step carries path `[s]` and distance `0` for `s`, and no
`'neighbor'` (relaxation) step is ever emitted. -/
theorem dijkstra_source_equals_target (g : Graph) (s : String) (hwf : g.WF)
    (hs : s ∈ nodeIds g) (hs0 : s ≠ "") :
    ∃ tr last, dijkstra g s s = .ok tr ∧ tr.getLast? = some last ∧
      last.type = StepType.path ∧ last.path = some [s] ∧
      last.distances s = 0 ∧
      tr.map (fun stp => (stp.type, stp.currentNodeId)) =
        [(StepType.visiting, none), (StepType.visiting, some s),
         (StepType.path, none)] := by
  obtain ⟨adj, hadjok, hadj⟩ := buildAdj_spec g hwf
  have hpq : (initialState g s).pq =
      { nodeId := s, distance := 0 } :: [] := rfl
  have hfresh : ({ nodeId := s, distance := 0 } : QueueEntry).nodeId ∉
      (initialState g s).visited := List.not_mem_nil s
  have hit := @dijkstraIterate_halt_eq adj s (initialState g s)
    { nodeId := s, distance := 0 } [] hfresh rfl
  have hloop : dijkstraLoop adj s
      (loopPotential adj [] (initialState g s).pq + 1) (initialState g s) =
      .ok { steps := (initialState g s).steps ++
              [{ currentNodeId := some s, type := .visiting,
                 distances := (initialState g s).distances,
                 visited := setAdd (initialState g s).visited s,
                 path := none, neighbor := none, queue := [] }],
            distances := (initialState g s).distances,
            previous := (initialState g s).previous,
            visited := setAdd (initialState g s).visited s, pq := [] } := by
    rw [dijkstraLoop_succ_cons hpq, hit]
  have hprevs : (initialState g s).previous s = none :=
    initPrevious_apply g.nodes s
  have hrec : reconstructPath (initialState g s).previous s
      (g.nodes.length + 1) = some [s] := by
    unfold reconstructPath
    rw [if_neg hs0]
    exact walkPrevAux_none hprevs _ []
  have hrun := dijkstra_run_eq hadjok hloop hrec
  rw [if_pos (show ([s] : List String).head? = some s from rfl)] at hrun
  refine ⟨_,
    { currentNodeId := none, type := StepType.path,
      distances := (initialState g s).distances,
      visited := setAdd (initialState g s).visited s,
      path := some [s], neighbor := none, queue := [] },
    hrun, ?_, rfl, rfl, ?_, rfl⟩
  · rw [List.getLast?_concat]
  · show initDistances g.nodes s s = 0
    rw [initDistances_apply]
    unfold nodeIds at hs
    rw [if_pos hs, if_pos rfl]

/-- Closed instance of the amended C9 on the one-node graph `g9`. -/
theorem source_equals_target_witness :
    ∃ tr last, dijkstra g9 "a" "a" = .ok tr ∧ tr.getLast? = some last ∧
      last.type = StepType.path ∧ last.path = some ["a"] ∧
      last.distances "a" = 0 ∧
      tr.map (fun stp => (stp.type, stp.currentNodeId)) =
        [(StepType.visiting, none), (StepType.visiting, some "a"),
         (StepType.path, none)] :=
  dijkstra_source_equals_target g9 "a" (by decide) (by decide) (by decide)

/-- C1 as stated is false: in `gE` the node `""` is present and reachable
from `a` (one edge of weight 1), yet the terminal `'path'` step carries the
empty path, because the reconstruction loop's entry test `while (current)`
treats the empty-string identifier as falsy. -/
theorem C1_counterexample :
    gE.NonnegWeights ∧ "a" ∈ nodeIds gE ∧ "" ∈ nodeIds gE ∧
    Reaches gE "a" "" ∧
    (dijkstra gE "a" "").map
        (fun tr => tr.map (fun stp => (stp.type, stp.path))) =
      .ok [(StepType.visiting, none), (StepType.visiting, none),
        (StepType.neighbor, none), (StepType.neighbor, none),
        (StepType.finishedNode, none), (StepType.visiting, none),
        (StepType.path, some [])] :=
  ⟨by decide, by decide, by decide,
    ⟨["a", ""], 1 + 0,
      PathFrom.cons "a" "" "" [""] 1 0
        ⟨⟨"e1", "a", "", 1⟩, List.mem_singleton.mpr rfl, rfl,
          Or.inl ⟨rfl, rfl⟩⟩
        (PathFrom.refl "" (by decide))⟩,
    rfl⟩

/-- Closed instance of the amended C1 on the four-node graph `gq`. -/
theorem terminal_shortest_witness :
    ∃ tr last, dijkstra gq "a" "c" = .ok tr ∧ tr.getLast? = some last ∧
      last.type = .path ∧
      (Reaches gq "a" "c" →
        ∃ p c, last.path = some p ∧ PathFrom gq "a" "c" p c ∧
          last.distances "c" = ((c : ℤ) : JsNum) ∧
          ∀ p' c', PathFrom gq "a" "c" p' c' → c ≤ c') ∧
      (¬ Reaches gq "a" "c" → last.path = some []) :=
  dijkstra_terminal_shortest gq "a" "c" (by decide) (by decide) (by decide)
    (by decide) (by decide)

end BengaluruNavigator
